import Mathlib

/-!
# gowiki: a shallow embedding of `wiki.go`

Go strings and byte slices are lists of byte values.  The standard-library
collaborators the program calls (`regexp`, `ioutil`, `net/http`,
`text/template`) are modelled by what the program observes of them:

* `regexp`: a backtracking matcher with Go's leftmost-first semantics for the
  fragment the two patterns of the program use;
* `ioutil`: a file system that is a map from file names to contents;
* `net/http` and `text/template`: every call the program makes on the
  response writer, on a template or on a file is appended to a trace.
-/

namespace Wiki

/-- A Go `string` or `[]byte`: the sequence of its bytes. -/
abbrev Bytes := List Nat

/-- The bytes of an ASCII literal of the source. -/
def ascii (s : String) : Bytes := s.toList.map Char.toNat

/-! ## The `regexp` fragment -/

/-- Matcher thread: offset of the next unread byte, the unread input, and the
capture groups closed so far as `(group, start, end)`, most recent first. -/
structure MState where
  pos : Nat
  rest : Bytes
  caps : List (Nat × Nat × Nat)
deriving DecidableEq, Repr

/-- Regular expressions: the fragment used by `validPath` and `pageLink`.
`plus p` is the greedy `x+` for a one-byte class `x`; `bot` and `eot` are `^`
and `$` without the multi-line flag. -/
inductive Re where
  | eps
  | byte (c : Nat)
  | cls (p : Nat → Bool)
  | plus (p : Nat → Bool)
  | cat (a b : Re)
  | alt (a b : Re)
  | group (i : Nat) (a : Re)
  | bot
  | eot

/-- First alternative that succeeds. -/
def orElse (a b : Option MState) : Option MState :=
  match a with
  | some r => some r
  | none => b

/-- Greedy `x+`: take one more byte of the class when possible and only
then try the continuation (longest first, backtracking to shorter). -/
def greedyPlus (p : Nat → Bool) (caps : List (Nat × Nat × Nat)) (k : MState → Option MState) :
    Nat → Bytes → Option MState
  | _, [] => none
  | pos, c :: cs =>
    if p c then orElse (greedyPlus p caps k (pos + 1) cs) (k ⟨pos + 1, cs, caps⟩) else none

/-- Backtracking match of `re` at thread `s`, then the continuation `k`. -/
def Re.run : Re → MState → (MState → Option MState) → Option MState
  | .eps, s, k => k s
  | .byte c, s, k =>
    match s.rest with
    | x :: xs => if x = c then k ⟨s.pos + 1, xs, s.caps⟩ else none
    | [] => none
  | .cls p, s, k =>
    match s.rest with
    | x :: xs => if p x then k ⟨s.pos + 1, xs, s.caps⟩ else none
    | [] => none
  | .plus p, s, k => greedyPlus p s.caps k s.pos s.rest
  | .cat a b, s, k => a.run s (fun s1 => b.run s1 k)
  | .alt a b, s, k => orElse (a.run s k) (b.run s k)
  | .group i a, s, k => a.run s (fun s1 => k ⟨s1.pos, s1.rest, (i, s.pos, s1.pos) :: s1.caps⟩)
  | .bot, s, k => if s.pos = 0 then k s else none
  | .eot, s, k => if s.rest = [] then k s else none

/-- Leftmost match at or after offset `pos`, `rest` being the input from
`pos` on: the start offset and the final thread. -/
def Re.search (re : Re) : Nat → Bytes → Option (Nat × MState)
  | pos, [] =>
    match re.run ⟨pos, [], []⟩ some with
    | some s => some (pos, s)
    | none => none
  | pos, c :: cs =>
    match re.run ⟨pos, c :: cs, []⟩ some with
    | some s => some (pos, s)
    | none => re.search (pos + 1) cs

/-- The regexp machine started at `searchPos` of `src`. -/
def Re.doExecute (re : Re) (src : Bytes) (searchPos : Nat) : Option (Nat × MState) :=
  re.search searchPos (src.drop searchPos)

/-- The slice `src[a:b]`. -/
def slice (src : Bytes) (a b : Nat) : Bytes := (src.take b).drop a

/-- The loop of `Regexp.replaceAll`: copy the bytes before the match, insert
the replacement (not for an empty match right after another match), go on
behind the match and at least one byte further. `fuel` bounds the iterations,
each of which advances `searchPos`; the character at `searchPos` is taken to be
one byte wide, which only matters for a match that ends less than one
character after `searchPos`. -/
def replaceAllLoop (re : Re) (repl : Bytes → Bytes) (src : Bytes) :
    Nat → Nat → Nat → Bytes → Bytes
  | 0, _, lastMatchEnd, buf => buf ++ src.drop lastMatchEnd
  | fuel + 1, searchPos, lastMatchEnd, buf =>
    if searchPos ≤ src.length then
      match re.doExecute src searchPos with
      | none => buf ++ src.drop lastMatchEnd
      | some (a0, s) =>
        let a1 := s.pos
        let buf1 := buf ++ slice src lastMatchEnd a0
        let buf2 := if a1 > lastMatchEnd ∨ a0 = 0 then buf1 ++ repl (slice src a0 a1) else buf1
        let searchPos1 := if searchPos + 1 > a1 then searchPos + 1 else a1
        replaceAllLoop re repl src fuel searchPos1 a1 buf2
    else buf ++ src.drop lastMatchEnd

/-- The method `re.ReplaceAllFunc(src, repl)`. -/
def ReplaceAllFunc (re : Re) (src : Bytes) (repl : Bytes → Bytes) : Bytes :=
  replaceAllLoop re repl src (src.length + 1) 0 0 []

/-- Text of capture group `i` of a match, as `FindStringSubmatch` returns it. -/
def submatch (src : Bytes) (s : MState) (i : Nat) : Bytes :=
  match s.caps.find? (fun c => c.1 = i) with
  | some (_, a, b) => slice src a b
  | none => []

/-- The method `re.FindStringSubmatch(s)`: the whole match and the groups 1 and 2, or `nil`. -/
def FindStringSubmatch (re : Re) (src : Bytes) : Option (Bytes × Bytes × Bytes) :=
  match re.doExecute src 0 with
  | none => none
  | some (a0, s) => some (slice src a0 s.pos, submatch src s 1, submatch src s 2)

/-- Literal text as a regular expression. -/
def Re.lit : Bytes → Re
  | [] => .eps
  | c :: cs => .cat (.byte c) (Re.lit cs)

/-- The alternation `a|b|...`. -/
def Re.alts : List Re → Re
  | [] => .eps
  | [a] => a
  | a :: b :: rest => .alt a (Re.alts (b :: rest))

/-- The class `[a-zA-Z0-9]`. -/
def isAlnum (c : Nat) : Bool :=
  (97 ≤ c && c ≤ 122) || (65 ≤ c && c ≤ 90) || (48 ≤ c && c ≤ 57)

/-- The class `.`: any character but newline. On bytes this is any byte but
10: the pattern that uses it delimits the run by the ASCII bytes `[` and `]`,
and neither they nor the newline occur inside a multi-byte character. -/
def isDot (c : Nat) : Bool := c != 10

/-! ## The program -/

/-- The type `Page`. -/
structure Page where
  Title : Bytes
  Body : Bytes
deriving DecidableEq, Repr

/-- The variable `tmplDir`. -/
def tmplDir : Bytes := ascii "tmpl"

/-- The variable `dataDir`. -/
def dataDir : Bytes := ascii "data"

/-- The value of `actions` once `main` has registered the three handlers. -/
def actions : List Bytes := [ascii "view", ascii "edit", ascii "save"]

/-- The pattern `"^/(" + strings.Join(actions, "|") + ")/([a-zA-Z0-9]+)$"`. -/
def validPath : Re :=
  .cat .bot (.cat (.byte 47) (.cat (.group 1 (Re.alts (actions.map Re.lit)))
    (.cat (.byte 47) (.cat (.group 2 (.plus isAlnum)) .eot))))

/-- The variable `baseTmplName`. -/
def baseTmplName : Bytes := ascii "base"

/-- The pattern `\[(.+)\]` of `viewHandler`. -/
def pageLink : Re :=
  .cat (.byte 91) (.cat (.group 1 (.plus isDot)) (.byte 93))

/-! ### The environment: files, templates, the response writer -/

/-- What the program does to the outside world, in order: calls on the
file system, on the response writer and on a template; `expvar` is the answer
of the handler that the imported package `expvar` registers, the published
variables as JSON with status 200. -/
inductive Effect where
  | readFile (name : Bytes)
  | writeFile (name data : Bytes) (perm : Nat)
  | redirect (url : Bytes) (code : Nat)
  | notFound
  | error (msg : Bytes) (code : Nat)
  | executeTemplate (tmpl name : Bytes) (p : Page)
  | expvar
deriving DecidableEq, Repr

/-- The file system, a map from file names to contents, and the trace of the
calls made so far. -/
structure World where
  files : Bytes → Option Bytes
  trace : List Effect

/-- Failures the environment may answer with: the error of a `WriteFile`
(given name and data) and of the execution of a template (given the key in
`templates`, the name executed and the page), `none` for success. The template
files are not part of the sources, so what their execution writes is left open. -/
structure Env where
  writeErr : Bytes → Bytes → Option Bytes
  execErr : Bytes → Bytes → Page → Option Bytes

/-- The request as the program reads it: `r.URL.Path` and `r.FormValue`. -/
structure Request where
  Path : Bytes
  FormValue : Bytes → Bytes

/-- Append one call to the trace. -/
def World.emit (w : World) (e : Effect) : World := ⟨w.files, w.trace ++ [e]⟩

/-- The call `ioutil.WriteFile`: on success the file holds exactly `data`; a refused
write leaves the map as it was. -/
def WriteFile (env : Env) (filename data : Bytes) (perm : Nat) (w : World) :
    Option Bytes × World :=
  let w1 := w.emit (.writeFile filename data perm)
  match env.writeErr filename data with
  | some e => (some e, w1)
  | none => (none, ⟨fun n => if n = filename then some data else w1.files n, w1.trace⟩)

/-- The call `ioutil.ReadFile`: the contents, or an error when the map has no such file. -/
def ReadFile (filename : Bytes) (w : World) : Except Bytes Bytes × World :=
  let w1 := w.emit (.readFile filename)
  match w.files filename with
  | some b => (.ok b, w1)
  | none => (.error (ascii "open " ++ filename ++ ascii ": no such file or directory"), w1)

/-- The constant `http.StatusFound`. -/
def StatusFound : Nat := 302

/-- The constant `http.StatusInternalServerError`. -/
def StatusInternalServerError : Nat := 500

/-! ### `wiki.go` -/

/-- The method `func (p *Page) save() error`. -/
def Page.save (env : Env) (p : Page) (w : World) : Option Bytes × World :=
  let filename := dataDir ++ ascii "/" ++ p.Title ++ ascii ".txt"
  WriteFile env filename p.Body 0o600 w

/-- The function `func loadPage(title string) (*Page, error)`. -/
def loadPage (title : Bytes) (w : World) : Except Bytes Page × World :=
  let filename := dataDir ++ ascii "/" ++ title ++ ascii ".txt"
  match ReadFile filename w with
  | (.error err, w1) => (.error err, w1)
  | (.ok body, w1) => (.ok ⟨title, body⟩, w1)

/-- The function `func rootHandler(w, r)`. -/
def rootHandler (_env : Env) (_r : Request) (w : World) : World :=
  w.emit (.redirect (ascii "/view/FrontPage") StatusFound)

/-- The function `func renderTemplate(w, tmpl, p)`: the execution of
`templates[tmpl]` is a call on the environment, which may fail. -/
def renderTemplate (env : Env) (tmpl : Bytes) (p : Page) (w : World) : World :=
  let w1 := w.emit (.executeTemplate tmpl baseTmplName p)
  match env.execErr tmpl baseTmplName p with
  | some err => w1.emit (.error err StatusInternalServerError)
  | none => w1

/-- The closure given to `ReplaceAllFunc` in `viewHandler`:
`fmt.Sprintf("<a href=\"%s\">%s</a>", title, title)` with
`title := match[1 : len(match)-1]`. -/
def linkRepl (m : Bytes) : Bytes :=
  let title := slice m 1 (m.length - 1)
  ascii "<a href=\"" ++ title ++ ascii "\">" ++ title ++ ascii "</a>"

/-- The function `func viewHandler(w, r, title)`. -/
def viewHandler (env : Env) (_r : Request) (title : Bytes) (w : World) : World :=
  match loadPage title w with
  | (.error _, w1) => w1.emit (.redirect (ascii "/edit/" ++ title) StatusFound)
  | (.ok p, w1) =>
    let p1 : Page := ⟨p.Title, ReplaceAllFunc pageLink p.Body linkRepl⟩
    renderTemplate env (ascii "view") p1 w1

/-- The function `func editHandler(w, r, title)`; the nil body of
`&Page{Title: title}` is the empty list. -/
def editHandler (env : Env) (_r : Request) (title : Bytes) (w : World) : World :=
  match loadPage title w with
  | (.error _, w1) => renderTemplate env (ascii "edit") ⟨title, []⟩ w1
  | (.ok p, w1) => renderTemplate env (ascii "edit") p w1

/-- The function `func saveHandler(w, r, title)`. -/
def saveHandler (env : Env) (r : Request) (title : Bytes) (w : World) : World :=
  let body := r.FormValue (ascii "body")
  let p : Page := ⟨title, body⟩
  match p.save env w with
  | (some err, w1) => w1.emit (.error err StatusInternalServerError)
  | (none, w1) => w1.emit (.redirect (ascii "/view/" ++ title) StatusFound)

/-- The function `func makeHandler(fn) http.HandlerFunc`. -/
def makeHandler (fn : Env → Request → Bytes → World → World) (env : Env) (r : Request)
    (w : World) : World :=
  match FindStringSubmatch validPath r.Path with
  | none => w.emit .notFound
  | some (_, _, m2) => fn env r m2 w

/-! ### `net/http`: the default `ServeMux` that `main` registers on

The mux routes on the escaped path of the request, segment by segment, and
prefers the patterns of the request's method; the handlers read the unescaped
`r.URL.Path`. -/

/-- Split at every `sep`; the pieces do not contain `sep`. -/
def splitOn (sep : Nat) : Bytes → List Bytes
  | [] => [[]]
  | c :: cs =>
    if c = sep then [] :: splitOn sep cs
    else
      match splitOn sep cs with
      | [] => [[c]]
      | l :: ls => (c :: l) :: ls

/-- Join the pieces with `sep` between them. -/
def joinWith (sep : Nat) : List Bytes → Bytes
  | [] => []
  | [l] => l
  | l :: m :: ls => l ++ sep :: joinWith sep (m :: ls)

/-- Elements of a rooted path after `path.Clean`: empty and `.` elements are
dropped, `..` removes the element before it (none at the root). `out` holds the
kept elements, last first. -/
def cleanElems : List Bytes → List Bytes → List Bytes
  | out, [] => out.reverse
  | out, seg :: segs =>
    if seg = [] ∨ seg = ascii "." then cleanElems out segs
    else if seg = ascii ".." then cleanElems out.tail segs
    else cleanElems (seg :: out) segs

/-- The function `path.Clean` on a rooted path. -/
def pathClean (p : Bytes) : Bytes := 47 :: joinWith 47 (cleanElems [] (splitOn 47 p))

/-- The function `cleanPath` of `net/http`: the canonical form of a request path, which
keeps a trailing slash. -/
def cleanPath (p : Bytes) : Bytes :=
  if p = [] then [47]
  else
    let p1 := if p.head? ≠ some 47 then 47 :: p else p
    let np := pathClean p1
    if p1.getLast? = some 47 ∧ np ≠ [47] then np ++ [47] else np

/-- The value of a hexadecimal digit. -/
def unhex (c : Nat) : Option Nat :=
  if 48 ≤ c ∧ c ≤ 57 then some (c - 48)
  else if 97 ≤ c ∧ c ≤ 102 then some (c - 87)
  else if 65 ≤ c ∧ c ≤ 70 then some (c - 55)
  else none

/-- The function `url.PathUnescape`: every `%XY` becomes the byte it encodes;
a `%` without two hexadecimal digits after it is an error. -/
def unescape : Bytes → Option Bytes
  | [] => some []
  | [c] => if c = 37 then none else some [c]
  | [c, d] => if c = 37 then none else (unescape [d]).map (fun u => c :: u)
  | c :: a :: b :: rest =>
    if c = 37 then
      match unhex a, unhex b, unescape rest with
      | some x, some y, some u => some ((16 * x + y) :: u)
      | _, _, _ => none
    else (unescape (a :: b :: rest)).map (fun u => c :: u)

/-- The function `pathUnescape` of `net/http`: the segment unescaped, or as it
is when that fails. -/
def pathUnescape (seg : Bytes) : Bytes := (unescape seg).getD seg

/-- The segments the mux walks through for a path, each unescaped: the pieces
between the slashes after the leading one, the last of them empty for a path
that ends in a slash. -/
def pathSegs (path : Bytes) : List Bytes :=
  if path = [] then [] else (splitOn 47 (path.drop 1)).map pathUnescape

/-- One registration on the default mux, `http.HandleFunc(pattern, handler)`,
with the method of the pattern, if it has one, apart from its path. -/
structure MuxEntry where
  method : Option Bytes
  pattern : Bytes
  h : Env → Request → World → World

/-- The literal segments of a pattern, and whether it ends in a slash and so
names a subtree. -/
def patSegs (pattern : Bytes) : List Bytes × Bool :=
  let segs := splitOn 47 (pattern.drop 1)
  if segs.getLast? = some [] then (segs.dropLast, true) else (segs, false)

/-- A pattern matches the segments of a path: a pattern without trailing slash
when they are its own segments, a subtree pattern when its segments come first
and at least one more follows. -/
def patternMatches (pattern : Bytes) (segs : List Bytes) : Bool :=
  if (patSegs pattern).2 then
    (patSegs pattern).1.isPrefixOf segs && decide ((patSegs pattern).1.length < segs.length)
  else decide (segs = (patSegs pattern).1)

/-- The walk of the routing tree: literal segments are followed as far as a
match allows, so of the patterns that match, the one with the most literal
segments is found. -/
def matchPath (entries : List MuxEntry) (segs : List Bytes) : Option MuxEntry :=
  (entries.filter (fun e => patternMatches e.pattern segs)).foldl
    (fun best e =>
      match best with
      | none => some e
      | some b =>
        if (patSegs b.pattern).1.length < (patSegs e.pattern).1.length then some e else some b)
    none

/-- The method `matchMethodAndPath`: the patterns of the request's method
first, those of `GET` for a `HEAD` request next, the patterns without method
last. -/
def matchMethodAndPath (mux : List MuxEntry) (method : Bytes) (segs : List Bytes) :
    Option MuxEntry :=
  match matchPath (mux.filter (fun e => e.method = some method)) segs with
  | some e => some e
  | none =>
    match (if method = ascii "HEAD" then
        matchPath (mux.filter (fun e => e.method = some (ascii "GET"))) segs else none) with
    | some e => some e
    | none => matchPath (mux.filter (fun e => e.method = none)) segs

/-- The function `exactMatch`: a pattern without trailing slash matches
exactly; a subtree pattern does when the path ends in a slash and has as many
slashes as the pattern has segments, the subtree counted. -/
def exactMatch (n : Option MuxEntry) (path : Bytes) : Bool :=
  match n with
  | none => false
  | some e =>
    if (patSegs e.pattern).2 = false then true
    else if path ≠ [] ∧ path.getLast? ≠ some 47 then false
    else decide ((patSegs e.pattern).1.length + 1 = path.count 47)

/-- The method `ServeMux.matchOrRedirect`: the match for the path, or, when
that match is not exact, the path has no trailing slash and the path with a
slash added is matched exactly, the path to redirect to, which is the cleaned
`u.Path` with a slash added. -/
def matchOrRedirect (mux : List MuxEntry) (method path uPath : Bytes) :
    Option MuxEntry × Option Bytes :=
  let n := matchMethodAndPath mux method (pathSegs path)
  if exactMatch n path = false ∧ path.getLast? ≠ some 47 then
    if exactMatch (matchMethodAndPath mux method (pathSegs (path ++ [47]))) (path ++ [47]) = true
    then (none, some (cleanPath uPath ++ [47]))
    else (n, none)
  else (n, none)

/-- The status of the redirects that the mux answers on its own,
`http.StatusTemporaryRedirect` (`StatusMovedPermanently` in earlier releases of
`net/http`). -/
def muxRedirectStatus : Nat := 307

/-- The method `ServeMux.ServeHTTP`, given the method of the request and
`r.URL.EscapedPath()`, on which the mux routes, while the handlers read
`r.URL.Path`. The escaped path is cleaned; the mux redirects to the subtree
root or to the cleaned path where that differs from the path requested, and
otherwise calls the handler matched. Without a match the answer is
`NotFound`; the 405 that the library gives when patterns of other methods match
is left out, as with `/` registered every cleaned path has a match. The result
is `none` for the requests left out here, which the library treats apart:
those of method `CONNECT` and those for `*`. -/
def ServeHTTP (mux : List MuxEntry) (env : Env) (method escapedPath : Bytes) (r : Request)
    (w : World) : Option World :=
  if method = ascii "CONNECT" ∨ escapedPath = ascii "*" then none
  else
    let path := cleanPath escapedPath
    match matchOrRedirect mux method path r.Path with
    | (_, some u) => some (w.emit (.redirect u muxRedirectStatus))
    | (n, none) =>
      if path ≠ escapedPath then some (w.emit (.redirect path muxRedirectStatus))
      else
        match n with
        | some e => some (e.h env r w)
        | none => some (w.emit .notFound)

/-- The handler of package `expvar`. -/
def expvarHandler (_env : Env) (_r : Request) (w : World) : World := w.emit .expvar

/-- The registrations on the default mux: the one that the `init` of the
imported package `expvar` makes, `GET /debug/vars`, and those of `func main()`,
in order. -/
def main : List MuxEntry :=
  [⟨some (ascii "GET"), ascii "/debug/vars", expvarHandler⟩,
   ⟨none, ascii "/view/", makeHandler viewHandler⟩,
   ⟨none, ascii "/edit/", makeHandler editHandler⟩,
   ⟨none, ascii "/save/", makeHandler saveHandler⟩,
   ⟨none, ascii "/", rootHandler⟩]

/-- The server: `http.ListenAndServe(":8080", nil)` serves every request
through the default mux. -/
def serve (env : Env) (method escapedPath : Bytes) (r : Request) (w : World) : Option World :=
  ServeHTTP main env method escapedPath r w

/-! ## Vocabulary of the statements -/

/-- The file of a page: `dataDir + "/" + title + ".txt"`. -/
def pageFile (title : Bytes) : Bytes := dataDir ++ ascii "/" ++ title ++ ascii ".txt"

/-- A title of the shape `[a-zA-Z0-9]+`. -/
def validTitle (t : Bytes) : Prop := t ≠ [] ∧ ∀ c ∈ t, isAlnum c = true

/-- The whole of `path` matches `/(view|edit|save)/([a-zA-Z0-9]+)`, with the
given action and title. -/
def IsActionPath (path a t : Bytes) : Prop :=
  a ∈ actions ∧ validTitle t ∧ path = 47 :: a ++ 47 :: t

/-- A file name of the page store for a title of letters and digits, which
has no path separator and no dot. -/
def IsPageFile (name : Bytes) : Prop :=
  ∃ t, validTitle t ∧ 47 ∉ t ∧ 46 ∉ t ∧ name = pageFile t

/-- The pages and files of an effect are those of a title of letters and digits. -/
def Effect.titleSafe : Effect → Prop
  | .readFile name => IsPageFile name
  | .writeFile name _ _ => IsPageFile name
  | .executeTemplate _ _ p => validTitle p.Title
  | _ => True

/-- The anchor `<a href="T">T</a>`, `T` inserted as it is. -/
def anchor (t : Bytes) : Bytes := ascii "<a href=\"" ++ t ++ ascii "\">" ++ t ++ ascii "</a>"

/-- Where a greedy `.+\]` ends in the bytes that follow a `[`: the longest
non-empty run without newline that a `]` follows, and what comes after that `]`. -/
def linkEnd : Bytes → Option (Bytes × Bytes)
  | [] => none
  | c :: cs =>
    if isDot c = true then
      match linkEnd cs with
      | some (t, post) => some (c :: t, post)
      | none => if cs.head? = some 93 then some ([c], cs.tail) else none
    else none

/-- The leftmost match of `\[(.+)\]`: the bytes before it, the text of the
group, and the bytes after it. -/
def findLink : Bytes → Option (Bytes × Bytes × Bytes)
  | [] => none
  | c :: cs =>
    match (if c = 91 then linkEnd cs else none) with
    | some (t, post) => some ([], t, post)
    | none =>
      match findLink cs with
      | some (pre, t, post) => some (c :: pre, t, post)
      | none => none

/-- Replace the leftmost match and go on after it, at most `fuel` times. -/
def linkScan : Nat → Bytes → Bytes
  | 0, rest => rest
  | fuel + 1, rest =>
    match findLink rest with
    | none => rest
    | some (pre, t, post) => pre ++ anchor t ++ linkScan fuel post

/-! ### The line-by-line description of the link transform -/

/-- The line has a `[` at index `i` and a `]` at some index `j ≥ i + 2`. -/
def opensLink (line : Bytes) (i : Nat) : Bool :=
  line.get? i == some 91 && (line.drop (i + 2)).contains 93

/-- The smallest such index, if there is one. -/
def firstOpen (line : Bytes) : Option Nat := (List.range line.length).find? (opensLink line)

/-- The index of the last `]` of a line that has one: as many bytes follow it
as precede the first `]` of the reversed line. -/
def lastClose (line : Bytes) : Nat := line.length - 1 - line.reverse.indexOf 93

/-- One line rewritten: with `i` the first index that opens a link and `j` the
index of the last `]`, the bytes `line[i..j]` become the anchor of
`line[i+1..j-1]`; a line without such an `i` is unchanged. -/
def rewriteLine (line : Bytes) : Bytes :=
  match firstOpen line with
  | some i =>
    line.take i ++ anchor (slice line (i + 1) (lastClose line)) ++ line.drop (lastClose line + 1)
  | none => line

/-- The body rewritten line by line: split at the newlines, rewrite each line,
join with the newlines again. -/
def rewriteLines (body : Bytes) : Bytes := joinWith 10 ((splitOn 10 body).map rewriteLine)

/-- The pattern as the specification words it: an open bracket, one or more
characters other than `]`, a close bracket. -/
def specPageLink : Re :=
  .cat (.byte 91) (.cat (.group 1 (.plus (fun c => c != 93))) (.byte 93))

/-- Text without bracket and without newline. -/
def plain (l : Bytes) : Prop := 91 ∉ l ∧ 93 ∉ l ∧ 10 ∉ l

/-- The segments are those of a path under `/view/`, `/edit/` or `/save/`:
an action first and at least one segment after it. -/
def underAction (segs : List Bytes) : Bool :=
  match segs with
  | a :: _ :: _ => decide (a ∈ actions)
  | _ => false

/-- The `http.Error` call that follows a failed template execution, if it failed. -/
def execFailure (env : Env) (tmpl : Bytes) (p : Page) : List Effect :=
  match env.execErr tmpl baseTmplName p with
  | some err => [.error err StatusInternalServerError]
  | none => []

/-- An environment in which no write and no template execution fails. -/
def okEnv : Env := ⟨fun _ _ => none, fun _ _ _ => none⟩

/-- An environment in which every write is refused with the message `denied`. -/
def readOnlyEnv : Env := ⟨fun _ _ => some (ascii "denied"), fun _ _ _ => none⟩

/-- The world without any file. -/
def emptyWorld : World := ⟨fun _ => none, []⟩

/-- A world whose only file is the page `FrontPage` with the body `Hello [World]`. -/
def frontPageWorld : World :=
  ⟨fun n => if n = ascii "data/FrontPage.txt" then some (ascii "Hello [World]") else none, []⟩

/-- A request for `path` whose form has `body` in every field. -/
def request (path body : String) : Request := ⟨ascii path, fun _ => ascii body⟩

/-! ## Page store -/

theorem loadPage_eq (title : Bytes) (w : World) :
    loadPage title w =
      (match w.files (pageFile title) with
        | some b => Except.ok ⟨title, b⟩
        | none => Except.error
            (ascii "open " ++ pageFile title ++ ascii ": no such file or directory"),
       w.emit (.readFile (pageFile title))) := by
  unfold loadPage ReadFile pageFile
  generalize dataDir ++ ascii "/" ++ title ++ ascii ".txt" = f
  cases h : w.files f <;> simp only [h]

theorem save_eq (env : Env) (p : Page) (w : World) :
    Page.save env p w =
      (env.writeErr (pageFile p.Title) p.Body,
       match env.writeErr (pageFile p.Title) p.Body with
        | some _ => w.emit (.writeFile (pageFile p.Title) p.Body 0o600)
        | none => ⟨fun n => if n = pageFile p.Title then some p.Body else w.files n,
            w.trace ++ [.writeFile (pageFile p.Title) p.Body 0o600]⟩) := by
  unfold Page.save WriteFile pageFile
  generalize dataDir ++ ascii "/" ++ p.Title ++ ascii ".txt" = f
  cases h : env.writeErr f p.Body <;> simp only [h]
  rfl

theorem loadPage_trace (title : Bytes) (w : World) :
    (loadPage title w).2 = w.emit (.readFile (pageFile title)) := by
  rw [loadPage_eq]

theorem loadPage_ok_iff (title : Bytes) (w : World) (p : Page) :
    (loadPage title w).1 = .ok p ↔ p.Title = title ∧ w.files (pageFile title) = some p.Body := by
  rw [loadPage_eq]
  cases p with
  | mk t b1 =>
    cases h : w.files (pageFile title) with
    | none => simp
    | some b =>
      simp only [Except.ok.injEq, Page.mk.injEq, Option.some.injEq]
      constructor
      · rintro ⟨rfl, rfl⟩; exact ⟨rfl, rfl⟩
      · rintro ⟨rfl, rfl⟩; exact ⟨rfl, rfl⟩

theorem loadPage_error_iff (title : Bytes) (w : World) :
    (∃ err, (loadPage title w).1 = .error err) ↔ w.files (pageFile title) = none := by
  rw [loadPage_eq]
  cases h : w.files (pageFile title) <;> simp

/-- C3: when `(&Page{title, body}).save()` reports no error, `loadPage(title)`
on the resulting file system succeeds and returns the page with that title and
exactly that body. -/
theorem save_then_loadPage (env : Env) (title body : Bytes) (w : World)
    (h : (Page.save env ⟨title, body⟩ w).1 = none) :
    (loadPage title (Page.save env ⟨title, body⟩ w).2).1 = .ok ⟨title, body⟩ := by
  rw [loadPage_ok_iff]
  refine ⟨rfl, ?_⟩
  rw [save_eq] at h ⊢
  simp only at h
  simp only [h, if_true]

theorem save_then_loadPage_witness :
    (Page.save okEnv ⟨ascii "FrontPage", ascii "Hello [World]"⟩ emptyWorld).1 = none ∧
    (loadPage (ascii "FrontPage")
      (Page.save okEnv ⟨ascii "FrontPage", ascii "Hello [World]"⟩ emptyWorld).2).1 =
      .ok ⟨ascii "FrontPage", ascii "Hello [World]"⟩ :=
  ⟨rfl, save_then_loadPage okEnv (ascii "FrontPage") (ascii "Hello [World]") emptyWorld rfl⟩

/-! ## Handlers -/

/-- C6: when `loadPage(title)` fails, `viewHandler` makes exactly two calls:
the read of the page file and `http.Redirect` to `/edit/` followed by the same
title with status 302; no template is executed, no error is reported and no
file changes. -/
theorem viewHandler_missing_page (env : Env) (r : Request) (title : Bytes) (w : World)
    (h : ∃ err, (loadPage title w).1 = .error err) :
    (viewHandler env r title w).trace =
      w.trace ++ [.readFile (pageFile title), .redirect (ascii "/edit/" ++ title) 302] ∧
    (viewHandler env r title w).files = w.files := by
  obtain ⟨err, herr⟩ := h
  have ht := loadPage_trace title w
  unfold viewHandler
  cases hl : loadPage title w with
  | mk res w1 =>
    rw [hl] at herr ht
    simp only at herr ht
    subst herr ht
    simp [World.emit, StatusFound]

theorem viewHandler_missing_page_witness :
    (∃ err, (loadPage (ascii "Nowhere") emptyWorld).1 = .error err) ∧
    (viewHandler okEnv (request "/view/Nowhere" "") (ascii "Nowhere") emptyWorld).trace =
      emptyWorld.trace ++
        [.readFile (pageFile (ascii "Nowhere")), .redirect (ascii "/edit/" ++ ascii "Nowhere") 302] ∧
    (viewHandler okEnv (request "/view/Nowhere" "") (ascii "Nowhere") emptyWorld).files =
      emptyWorld.files :=
  ⟨⟨_, rfl⟩, viewHandler_missing_page okEnv (request "/view/Nowhere" "") (ascii "Nowhere")
    emptyWorld ⟨_, rfl⟩⟩

theorem renderTemplate_eq (env : Env) (tmpl : Bytes) (p : Page) (w : World) :
    renderTemplate env tmpl p w =
      ⟨w.files, w.trace ++ .executeTemplate tmpl baseTmplName p :: execFailure env tmpl p⟩ := by
  unfold renderTemplate execFailure
  cases h : env.execErr tmpl baseTmplName p <;> simp [World.emit]

/-- C7: `editHandler` reads the page file and executes the "edit" template,
with `Page{Title: title}` (empty body) when `loadPage` fails and with the
loaded page, whose body is the content of the file as it is, when it succeeds.
It makes no other call: no redirect, and the only error it can report is the
failure of the template execution itself. -/
theorem editHandler_renders (env : Env) (r : Request) (title : Bytes) (w : World) :
    ((∃ err, (loadPage title w).1 = .error err) →
      (editHandler env r title w).trace =
        w.trace ++ [.readFile (pageFile title),
          .executeTemplate (ascii "edit") baseTmplName ⟨title, []⟩] ++
          execFailure env (ascii "edit") ⟨title, []⟩) ∧
    (∀ p, (loadPage title w).1 = .ok p →
      w.files (pageFile title) = some p.Body ∧ p.Title = title ∧
      (editHandler env r title w).trace =
        w.trace ++ [.readFile (pageFile title),
          .executeTemplate (ascii "edit") baseTmplName p] ++
          execFailure env (ascii "edit") p) ∧
    (editHandler env r title w).files = w.files := by
  have ht := loadPage_trace title w
  have hok := loadPage_ok_iff title w
  unfold editHandler
  cases hl : loadPage title w with
  | mk res w1 =>
    rw [hl] at ht hok
    simp only at ht hok
    subst ht
    cases res with
    | error e =>
      refine ⟨fun _ => ?_, fun p hp => by simp at hp, ?_⟩
      · simp [renderTemplate_eq, World.emit]
      · simp [renderTemplate_eq, World.emit]
    | ok q =>
      refine ⟨fun h => by simp at h, fun p hp => ?_, ?_⟩
      · have hpq : q = p := by simpa using hp
        subst hpq
        obtain ⟨h1, h2⟩ := (hok q).1 rfl
        refine ⟨h2, h1, ?_⟩
        simp [renderTemplate_eq, World.emit]
      · simp [renderTemplate_eq, World.emit]

theorem editHandler_renders_witness :
    (editHandler okEnv (request "/edit/Nowhere" "") (ascii "Nowhere") emptyWorld).trace =
      emptyWorld.trace ++ [.readFile (pageFile (ascii "Nowhere")),
        .executeTemplate (ascii "edit") baseTmplName ⟨ascii "Nowhere", []⟩] ++
        execFailure okEnv (ascii "edit") ⟨ascii "Nowhere", []⟩ ∧
    (editHandler okEnv (request "/edit/FrontPage" "") (ascii "FrontPage") frontPageWorld).trace =
      frontPageWorld.trace ++ [.readFile (pageFile (ascii "FrontPage")),
        .executeTemplate (ascii "edit") baseTmplName ⟨ascii "FrontPage", ascii "Hello [World]"⟩] ++
        execFailure okEnv (ascii "edit") ⟨ascii "FrontPage", ascii "Hello [World]"⟩ :=
  ⟨(editHandler_renders okEnv (request "/edit/Nowhere" "") (ascii "Nowhere") emptyWorld).1
      ⟨_, rfl⟩,
   ((editHandler_renders okEnv (request "/edit/FrontPage" "") (ascii "FrontPage")
      frontPageWorld).2.1 ⟨ascii "FrontPage", ascii "Hello [World]"⟩ rfl).2.2⟩

/-- C8: `saveHandler` writes the page file once, with the form value `body`
unchanged. It then redirects with status 302 to `/view/` followed by the same
title exactly when the write succeeded; when the write failed it calls
`http.Error` with the message of that error and status 500, and nothing else. -/
theorem saveHandler_outcome (env : Env) (r : Request) (title : Bytes) (w : World) :
    ((Page.save env ⟨title, r.FormValue (ascii "body")⟩ w).1 = none →
      (saveHandler env r title w).trace =
        w.trace ++ [.writeFile (pageFile title) (r.FormValue (ascii "body")) 0o600,
          .redirect (ascii "/view/" ++ title) 302]) ∧
    (∀ err, (Page.save env ⟨title, r.FormValue (ascii "body")⟩ w).1 = some err →
      (saveHandler env r title w).trace =
        w.trace ++ [.writeFile (pageFile title) (r.FormValue (ascii "body")) 0o600,
          .error err 500]) ∧
    (Effect.redirect (ascii "/view/" ++ title) 302 ∈
        (saveHandler env r title w).trace.drop w.trace.length ↔
      (Page.save env ⟨title, r.FormValue (ascii "body")⟩ w).1 = none) := by
  unfold saveHandler
  simp only [save_eq]
  cases h : env.writeErr (pageFile title) (r.FormValue (ascii "body")) with
  | none => simp [World.emit, StatusFound]
  | some e => simp [World.emit, StatusInternalServerError]

theorem saveHandler_outcome_witness :
    (saveHandler okEnv (request "/save/FrontPage" "Hello") (ascii "FrontPage") emptyWorld).trace =
      emptyWorld.trace ++ [.writeFile (pageFile (ascii "FrontPage")) (ascii "Hello") 0o600,
        .redirect (ascii "/view/" ++ ascii "FrontPage") 302] ∧
    (saveHandler readOnlyEnv (request "/save/FrontPage" "Hello") (ascii "FrontPage")
        emptyWorld).trace =
      emptyWorld.trace ++ [.writeFile (pageFile (ascii "FrontPage")) (ascii "Hello") 0o600,
        .error (ascii "denied") 500] :=
  ⟨(saveHandler_outcome okEnv (request "/save/FrontPage" "Hello") (ascii "FrontPage")
      emptyWorld).1 rfl,
   (saveHandler_outcome readOnlyEnv (request "/save/FrontPage" "Hello") (ascii "FrontPage")
      emptyWorld).2.1 (ascii "denied") rfl⟩

/-! ## The path pattern -/

theorem orElse_some (r : MState) (b : Option MState) : orElse (some r) b = some r := rfl

theorem orElse_none (b : Option MState) : orElse none b = b := rfl

/-- The continuation of `([a-zA-Z0-9]+)$` once the group has matched. -/
theorem greedyPlus_alnum_eot (g : Nat) (caps : List (Nat × Nat × Nat)) (pos : Nat) (t : Bytes) :
    greedyPlus isAlnum caps
        (fun s1 =>
          if s1.rest = [] then some ⟨s1.pos, s1.rest, (2, g, s1.pos) :: s1.caps⟩ else none) pos t =
      if t ≠ [] ∧ ∀ c ∈ t, isAlnum c = true then
        some ⟨pos + t.length, [], (2, g, pos + t.length) :: caps⟩
      else none := by
  induction t generalizing pos with
  | nil => simp [greedyPlus]
  | cons c cs ih =>
    simp only [greedyPlus]
    by_cases hc : isAlnum c = true
    · rw [if_pos hc, ih]
      by_cases hcs : cs ≠ [] ∧ ∀ c ∈ cs, isAlnum c = true
      · rw [if_pos hcs, orElse_some, if_pos]
        · simp only [List.length_cons]
          rw [show pos + 1 + cs.length = pos + (cs.length + 1) by omega]
        · exact ⟨by simp, by simpa [hc] using hcs.2⟩
      · rw [if_neg hcs, orElse_none]
        cases cs with
        | nil => simp [hc]
        | cons d ds =>
          have : ¬ ∀ c ∈ d :: ds, isAlnum c = true := fun h => hcs ⟨by simp, h⟩
          rw [if_neg (by simp), if_neg]
          rintro ⟨_, h2⟩
          exact this (fun c hc => h2 c (List.mem_cons_of_mem _ hc))
    · rw [if_neg hc, if_neg]
      rintro ⟨_, h2⟩
      exact hc (h2 c (by simp))

theorem ascii_view : ascii "view" = [118, 105, 101, 119] := by decide

theorem ascii_edit : ascii "edit" = [101, 100, 105, 116] := by decide

theorem ascii_save : ascii "save" = [115, 97, 118, 101] := by decide

theorem mem_actions (a : Bytes) :
    a ∈ actions ↔ a = [118, 105, 101, 119] ∨ a = [101, 100, 105, 116] ∨ a = [115, 97, 118, 101] := by
  simp [actions, ascii_view, ascii_edit, ascii_save]

theorem ite_word (x1 x2 x3 x4 a b c d : Nat) (G : Option MState) :
    (if x1 = a then if x2 = b then if x3 = c then if x4 = d then G else none else none
      else none else none) = if [x1, x2, x3, x4] = [a, b, c, d] then G else none := by
  by_cases h1 : x1 = a <;> by_cases h2 : x2 = b <;> by_cases h3 : x3 = c <;>
    by_cases h4 : x4 = d <;> simp [h1, h2, h3, h4]

theorem orElse_three (P1 P2 P3 T : Prop) [Decidable P1] [Decidable P2] [Decidable P3]
    [Decidable T] (X : MState) :
    orElse (if P1 then (if T then some X else none) else none)
      (orElse (if P2 then (if T then some X else none) else none)
        (if P3 then (if T then some X else none) else none)) =
      if (P1 ∨ P2 ∨ P3) ∧ T then some X else none := by
  by_cases h1 : P1 <;> by_cases h2 : P2 <;> by_cases h3 : P3 <;> by_cases hT : T <;>
    simp [h1, h2, h3, hT, orElse]

theorem validPath_run_shape (path : Bytes) (h : validPath.run ⟨0, path, []⟩ some ≠ none) :
    ∃ x1 x2 x3 x4 t, path = 47 :: x1 :: x2 :: x3 :: x4 :: 47 :: t := by
  simp only [validPath, Re.run, if_true] at h
  rcases path with _ | ⟨x0, _ | ⟨x1, _ | ⟨x2, _ | ⟨x3, _ | ⟨x4, _ | ⟨x5, t⟩⟩⟩⟩⟩⟩
  · exact absurd rfl h
  · by_cases h0 : x0 = 47 <;> simp [h0, orElse] at h
  · by_cases h0 : x0 = 47 <;> simp [h0, orElse] at h
  · by_cases h0 : x0 = 47 <;> simp [h0, orElse] at h
  · by_cases h0 : x0 = 47 <;> simp [h0, orElse] at h
  · by_cases h0 : x0 = 47 <;> simp [h0, orElse] at h
  · by_cases h0 : x0 = 47
    · by_cases h5 : x5 = 47
      · exact ⟨x1, x2, x3, x4, t, by rw [h0, h5]⟩
      · simp [h0, h5, orElse] at h
    · simp [h0, orElse] at h

theorem validPath_run_unfold (x1 x2 x3 x4 : Nat) (t : Bytes) :
    validPath.run ⟨0, 47 :: x1 :: x2 :: x3 :: x4 :: 47 :: t, []⟩ some =
      if [x1, x2, x3, x4] ∈ actions ∧ t ≠ [] ∧ ∀ c ∈ t, isAlnum c = true then
        some ⟨6 + t.length, [], [(2, 6, 6 + t.length), (1, 1, 5)]⟩
      else none := by
  have hv : 'v'.toNat = 118 := by decide
  have hi : 'i'.toNat = 105 := by decide
  have he : 'e'.toNat = 101 := by decide
  have hw : 'w'.toNat = 119 := by decide
  have hd : 'd'.toNat = 100 := by decide
  have ht : 't'.toNat = 116 := by decide
  have hs : 's'.toNat = 115 := by decide
  have ha : 'a'.toNat = 97 := by decide
  simp only [validPath, Re.run, if_true, hv, hi, he, hw, hd, ht, hs, ha, greedyPlus_alnum_eot,
    ite_word]
  rw [orElse_three]
  apply if_congr _ rfl rfl
  rw [mem_actions]

theorem validPath_search_pos (pos : Nat) (rest : Bytes) (h : 0 < pos) :
    validPath.search pos rest = none := by
  induction rest generalizing pos with
  | nil => simp [Re.search, validPath, Re.run, Nat.pos_iff_ne_zero.1 h]
  | cons c cs ih =>
    simp only [Re.search]
    rw [ih (pos + 1) (by omega)]
    simp [validPath, Re.run, Nat.pos_iff_ne_zero.1 h]

theorem validPath_search_zero (path : Bytes) :
    validPath.search 0 path =
      match validPath.run ⟨0, path, []⟩ some with
      | some s => some (0, s)
      | none => none := by
  cases path with
  | nil => rfl
  | cons c cs =>
    simp only [Re.search]
    cases validPath.run ⟨0, c :: cs, []⟩ some with
    | none => exact validPath_search_pos _ _ (by omega)
    | some s => rfl

theorem findStringSubmatch_validPath (path a t : Bytes) (h : IsActionPath path a t) :
    FindStringSubmatch validPath path = some (path, a, t) := by
  obtain ⟨ha, ht, rfl⟩ := h
  obtain ⟨x1, x2, x3, x4, rfl⟩ : ∃ x1 x2 x3 x4, a = [x1, x2, x3, x4] := by
    rcases (mem_actions a).1 ha with rfl | rfl | rfl <;> exact ⟨_, _, _, _, rfl⟩
  unfold FindStringSubmatch Re.doExecute
  rw [List.drop_zero, validPath_search_zero]
  have hrun := validPath_run_unfold x1 x2 x3 x4 t
  rw [if_pos ⟨ha, ht⟩] at hrun
  simp only [List.cons_append, List.nil_append, hrun]
  have htake : List.take (6 + t.length) (47 :: x1 :: x2 :: x3 :: x4 :: 47 :: t) =
      47 :: x1 :: x2 :: x3 :: x4 :: 47 :: t :=
    List.take_of_length_le (by simp only [List.length_cons]; omega)
  simp only [submatch, slice, List.find?, decide_True, decide_eq_true_eq, List.drop_zero,
    show decide (2 = 1) = false by decide, htake]
  rfl

theorem findStringSubmatch_validPath_some (path : Bytes) (m : Bytes × Bytes × Bytes)
    (h : FindStringSubmatch validPath path = some m) :
    ∃ a t, IsActionPath path a t := by
  unfold FindStringSubmatch Re.doExecute at h
  rw [List.drop_zero, validPath_search_zero] at h
  have hrun : validPath.run ⟨0, path, []⟩ some ≠ none := by
    intro hn
    simp [hn] at h
  obtain ⟨x1, x2, x3, x4, t, rfl⟩ := validPath_run_shape path hrun
  rw [validPath_run_unfold] at hrun
  by_cases hc : [x1, x2, x3, x4] ∈ actions ∧ t ≠ [] ∧ ∀ c ∈ t, isAlnum c = true
  · exact ⟨[x1, x2, x3, x4], t, hc.1, hc.2, rfl⟩
  · rw [if_neg hc] at hrun
    exact absurd rfl hrun

theorem findStringSubmatch_validPath_none (path : Bytes)
    (h : ¬ ∃ a t, IsActionPath path a t) : FindStringSubmatch validPath path = none := by
  cases hm : FindStringSubmatch validPath path with
  | none => rfl
  | some m => exact absurd (findStringSubmatch_validPath_some path m hm) h

theorem not_isActionPath_of_none (path : Bytes)
    (h : FindStringSubmatch validPath path = none) : ¬ ∃ a t, IsActionPath path a t := by
  rintro ⟨a, t, hat⟩
  rw [findStringSubmatch_validPath path a t hat] at h
  exact absurd h (by simp)

/-! ## What each handler does -/

theorem viewHandler_eq (env : Env) (r : Request) (title : Bytes) (w : World) :
    viewHandler env r title w =
      match w.files (pageFile title) with
      | none => ⟨w.files, w.trace ++
          [.readFile (pageFile title), .redirect (ascii "/edit/" ++ title) 302]⟩
      | some b => ⟨w.files, w.trace ++ .readFile (pageFile title) ::
          .executeTemplate (ascii "view") baseTmplName
            ⟨title, ReplaceAllFunc pageLink b linkRepl⟩ ::
          execFailure env (ascii "view") ⟨title, ReplaceAllFunc pageLink b linkRepl⟩⟩ := by
  unfold viewHandler
  rw [loadPage_eq]
  cases h : w.files (pageFile title) <;>
    simp [renderTemplate_eq, World.emit, StatusFound]

theorem editHandler_eq (env : Env) (r : Request) (title : Bytes) (w : World) :
    editHandler env r title w =
      ⟨w.files, w.trace ++ .readFile (pageFile title) ::
        .executeTemplate (ascii "edit") baseTmplName ⟨title, (w.files (pageFile title)).getD []⟩ ::
        execFailure env (ascii "edit") ⟨title, (w.files (pageFile title)).getD []⟩⟩ := by
  unfold editHandler
  rw [loadPage_eq]
  cases h : w.files (pageFile title) <;> simp [renderTemplate_eq, World.emit]

theorem saveHandler_eq (env : Env) (r : Request) (title : Bytes) (w : World) :
    saveHandler env r title w =
      match env.writeErr (pageFile title) (r.FormValue (ascii "body")) with
      | some err => ⟨w.files, w.trace ++
          [.writeFile (pageFile title) (r.FormValue (ascii "body")) 0o600, .error err 500]⟩
      | none => ⟨fun n => if n = pageFile title then some (r.FormValue (ascii "body"))
            else w.files n,
          w.trace ++ [.writeFile (pageFile title) (r.FormValue (ascii "body")) 0o600,
            .redirect (ascii "/view/" ++ title) 302]⟩ := by
  unfold saveHandler
  simp only [save_eq]
  cases h : env.writeErr (pageFile title) (r.FormValue (ascii "body")) <;>
    simp [World.emit, StatusFound, StatusInternalServerError]

/-! ## The dispatcher -/

theorem makeHandler_match (env : Env) (r : Request) (w : World) (a t : Bytes)
    (h : IsActionPath r.Path a t) (fn : Env → Request → Bytes → World → World) :
    makeHandler fn env r w = fn env r t w := by
  unfold makeHandler
  rw [findStringSubmatch_validPath r.Path a t h]

theorem makeHandler_no_match (env : Env) (r : Request) (w : World)
    (h : ¬ ∃ a t, IsActionPath r.Path a t) (fn : Env → Request → Bytes → World → World) :
    makeHandler fn env r w = w.emit .notFound := by
  unfold makeHandler
  rw [findStringSubmatch_validPath_none r.Path h]

/-- C2: `makeHandler(fn)` answers `http.NotFound` whatever `fn` is, that is
without calling it, exactly when the whole path does not match
`/(view|edit|save)/([a-zA-Z0-9]+)`; when the path is `/` action `/` title of
that shape, it is the one call of `fn` with that title. -/
theorem makeHandler_dispatch (env : Env) (r : Request) (w : World) :
    ((∀ fn, makeHandler fn env r w = w.emit .notFound) ↔ ¬ ∃ a t, IsActionPath r.Path a t) ∧
    (∀ a t, IsActionPath r.Path a t → ∀ fn, makeHandler fn env r w = fn env r t w) := by
  refine ⟨⟨fun hall hex => ?_, fun hno fn => makeHandler_no_match env r w hno fn⟩,
    fun a t h fn => makeHandler_match env r w a t h fn⟩
  obtain ⟨a, t, h⟩ := hex
  have h1 := hall (fun _ _ _ w1 => w1)
  rw [makeHandler_match env r w a t h] at h1
  have h2 := congrArg (fun w1 => w1.trace.length) h1
  simp [World.emit] at h2

theorem makeHandler_dispatch_witness :
    (∀ fn, makeHandler fn okEnv (request "/view/bad title!" "") emptyWorld =
      emptyWorld.emit .notFound) ∧
    (∀ fn, makeHandler fn okEnv (request "/view/FrontPage" "") emptyWorld =
      fn okEnv (request "/view/FrontPage" "") (ascii "FrontPage") emptyWorld) := by
  refine ⟨(makeHandler_dispatch okEnv (request "/view/bad title!" "") emptyWorld).1.2 ?_,
    (makeHandler_dispatch okEnv (request "/view/FrontPage" "") emptyWorld).2
      (ascii "view") (ascii "FrontPage") ⟨by decide, ⟨by decide, by decide⟩, by decide⟩⟩
  exact not_isActionPath_of_none _ (by decide)

/-! ## Titles reaching the page store -/

theorem validTitle_no_separator (t : Bytes) (h : validTitle t) : 47 ∉ t ∧ 46 ∉ t :=
  ⟨fun hm => absurd (h.2 47 hm) (by decide), fun hm => absurd (h.2 46 hm) (by decide)⟩

theorem isPageFile_of_validTitle (t : Bytes) (h : validTitle t) : IsPageFile (pageFile t) :=
  ⟨t, h, (validTitle_no_separator t h).1, (validTitle_no_separator t h).2, rfl⟩

theorem execFailure_titleSafe (env : Env) (tmpl : Bytes) (p : Page) :
    ∀ e ∈ execFailure env tmpl p, e.titleSafe := by
  intro e he
  unfold execFailure at he
  cases h : env.execErr tmpl baseTmplName p with
  | none => simp [h] at he
  | some err =>
    simp only [h, List.mem_singleton] at he
    subst he
    trivial

theorem makeHandler_titleSafe (fn : Env → Request → Bytes → World → World) (env : Env)
    (r : Request) (w : World)
    (hfn : ∀ t, validTitle t →
      ∃ new, (fn env r t w).trace = w.trace ++ new ∧ ∀ e ∈ new, e.titleSafe) :
    ∃ new, (makeHandler fn env r w).trace = w.trace ++ new ∧ ∀ e ∈ new, e.titleSafe := by
  by_cases h : ∃ a t, IsActionPath r.Path a t
  · obtain ⟨a, t, hat⟩ := h
    rw [makeHandler_match env r w a t hat fn]
    exact hfn t hat.2.1
  · rw [makeHandler_no_match env r w h fn]
    refine ⟨[.notFound], rfl, ?_⟩
    intro e he
    rw [List.mem_singleton] at he
    subst he
    trivial

/-- C9: in a request served through `makeHandler`, every file that
`viewHandler`, `editHandler` or `saveHandler` reads or writes is
`dataDir/title.txt` for a non-empty title of ASCII letters and digits, hence
without path separator or dot, and every page handed to a template has such a
title. -/
theorem handlers_titles_valid (env : Env) (r : Request) (w : World) :
    (∃ new, (makeHandler viewHandler env r w).trace = w.trace ++ new ∧
      ∀ e ∈ new, e.titleSafe) ∧
    (∃ new, (makeHandler editHandler env r w).trace = w.trace ++ new ∧
      ∀ e ∈ new, e.titleSafe) ∧
    (∃ new, (makeHandler saveHandler env r w).trace = w.trace ++ new ∧
      ∀ e ∈ new, e.titleSafe) := by
  refine ⟨makeHandler_titleSafe _ env r w fun t ht => ?_,
    makeHandler_titleSafe _ env r w fun t ht => ?_,
    makeHandler_titleSafe _ env r w fun t ht => ?_⟩
  · rw [viewHandler_eq]
    cases h : w.files (pageFile t) with
    | none =>
      refine ⟨_, rfl, ?_⟩
      intro e he
      simp only [List.mem_cons, List.mem_singleton, List.not_mem_nil, or_false] at he
      rcases he with rfl | rfl
      · exact isPageFile_of_validTitle t ht
      · trivial
    | some b =>
      refine ⟨_, rfl, ?_⟩
      intro e he
      simp only [List.mem_cons] at he
      rcases he with rfl | rfl | he
      · exact isPageFile_of_validTitle t ht
      · exact ht
      · exact execFailure_titleSafe _ _ _ e he
  · rw [editHandler_eq]
    refine ⟨_, rfl, ?_⟩
    intro e he
    simp only [List.mem_cons] at he
    rcases he with rfl | rfl | he
    · exact isPageFile_of_validTitle t ht
    · exact ht
    · exact execFailure_titleSafe _ _ _ e he
  · rw [saveHandler_eq]
    cases h : env.writeErr (pageFile t) (r.FormValue (ascii "body")) with
    | none =>
      refine ⟨_, rfl, ?_⟩
      intro e he
      simp only [List.mem_cons, List.mem_singleton, List.not_mem_nil, or_false] at he
      rcases he with rfl | rfl
      · exact isPageFile_of_validTitle t ht
      · trivial
    | some err =>
      refine ⟨_, rfl, ?_⟩
      intro e he
      simp only [List.mem_cons, List.mem_singleton, List.not_mem_nil, or_false] at he
      rcases he with rfl | rfl
      · exact isPageFile_of_validTitle t ht
      · trivial

/-! ## The link pattern -/

theorem greedyPlus_dot_close (g : Nat) (caps : List (Nat × Nat × Nat)) (pos : Nat) (r : Bytes) :
    greedyPlus isDot caps
        (fun s1 =>
          match s1.rest with
          | x :: xs =>
            if x = 93 then some ⟨s1.pos + 1, xs, (1, g, s1.pos) :: s1.caps⟩ else none
          | [] => none) pos r =
      match linkEnd r with
      | some (t, post) => some ⟨pos + t.length + 1, post, (1, g, pos + t.length) :: caps⟩
      | none => none := by
  induction r generalizing pos with
  | nil => rfl
  | cons c cs ih =>
    simp only [greedyPlus, linkEnd]
    by_cases hc : isDot c = true
    · rw [if_pos hc, if_pos hc, ih]
      cases hl : linkEnd cs with
      | some tp =>
        obtain ⟨t, post⟩ := tp
        simp only [orElse_some, List.length_cons]
        rw [show pos + 1 + t.length = pos + (t.length + 1) by omega]
      | none =>
        simp only [orElse_none]
        cases cs with
        | nil => rfl
        | cons y ys =>
          by_cases hy : y = 93
          · simp [hy]
          · simp [hy]
    · rw [if_neg hc, if_neg hc]

theorem pageLink_run (pos : Nat) (rest : Bytes) :
    pageLink.run ⟨pos, rest, []⟩ some =
      match rest with
      | [] => none
      | c :: cs =>
        match (if c = 91 then linkEnd cs else none) with
        | some (t, post) =>
          some ⟨pos + t.length + 2, post, [(1, pos + 1, pos + 1 + t.length)]⟩
        | none => none := by
  simp only [pageLink, Re.run]
  cases rest with
  | nil => rfl
  | cons c cs =>
    simp only
    by_cases hc : c = 91
    · rw [if_pos hc, if_pos hc, greedyPlus_dot_close]
      cases linkEnd cs with
      | none => rfl
      | some tp =>
        obtain ⟨t, post⟩ := tp
        simp only
        rw [show pos + 1 + t.length + 1 = pos + t.length + 2 by omega]
    · rw [if_neg hc, if_neg hc]

theorem pageLink_search (pos : Nat) (rest : Bytes) :
    pageLink.search pos rest =
      match findLink rest with
      | some (pre, t, post) =>
        some (pos + pre.length, ⟨pos + pre.length + t.length + 2, post,
          [(1, pos + pre.length + 1, pos + pre.length + 1 + t.length)]⟩)
      | none => none := by
  induction rest generalizing pos with
  | nil => simp [Re.search, pageLink_run, findLink]
  | cons c cs ih =>
    simp only [Re.search, pageLink_run, findLink]
    cases hl : (if c = 91 then linkEnd cs else none) with
    | some tp =>
      obtain ⟨t, post⟩ := tp
      simp
    | none =>
      simp only [ih]
      cases hf : findLink cs with
      | none => rfl
      | some q =>
        obtain ⟨pre, t, post⟩ := q
        simp only [List.length_cons]
        rw [show pos + 1 + pre.length = pos + (pre.length + 1) by omega]

theorem linkEnd_some (r t post : Bytes) (h : linkEnd r = some (t, post)) :
    r = t ++ 93 :: post ∧ t ≠ [] := by
  induction r generalizing t with
  | nil => simp [linkEnd] at h
  | cons c cs ih =>
    simp only [linkEnd] at h
    by_cases hc : isDot c = true
    · rw [if_pos hc] at h
      cases hl : linkEnd cs with
      | some tp =>
        obtain ⟨t1, post1⟩ := tp
        rw [hl] at h
        simp only [Option.some.injEq, Prod.mk.injEq] at h
        obtain ⟨rfl, rfl⟩ := h
        obtain ⟨h1, _⟩ := ih t1 hl
        exact ⟨by rw [h1]; rfl, by simp⟩
      | none =>
        rw [hl] at h
        cases cs with
        | nil => simp at h
        | cons y ys =>
          by_cases hy : y = 93
          · simp [hy] at h
            obtain ⟨rfl, rfl⟩ := h
            exact ⟨by simp [hy], by simp⟩
          · simp [hy] at h
    · rw [if_neg hc] at h
      exact absurd h (by simp)

theorem findLink_some (rest pre t post : Bytes) (h : findLink rest = some (pre, t, post)) :
    rest = pre ++ 91 :: t ++ 93 :: post ∧ t ≠ [] := by
  induction rest generalizing pre with
  | nil => simp [findLink] at h
  | cons c cs ih =>
    simp only [findLink] at h
    cases hl : (if c = 91 then linkEnd cs else none) with
    | some tp =>
      obtain ⟨t1, post1⟩ := tp
      rw [hl] at h
      simp only [Option.some.injEq, Prod.mk.injEq] at h
      obtain ⟨rfl, rfl, rfl⟩ := h
      by_cases hc : c = 91
      · rw [if_pos hc] at hl
        obtain ⟨h1, h2⟩ := linkEnd_some cs _ _ hl
        exact ⟨by rw [h1, hc]; simp, h2⟩
      · rw [if_neg hc] at hl
        exact absurd hl (by simp)
    | none =>
      rw [hl] at h
      cases hf : findLink cs with
      | none => simp [hf] at h
      | some q =>
        obtain ⟨pre1, t1, post1⟩ := q
        rw [hf] at h
        simp only [Option.some.injEq, Prod.mk.injEq] at h
        obtain ⟨rfl, rfl, rfl⟩ := h
        obtain ⟨h1, h2⟩ := ih pre1 hf
        exact ⟨by rw [h1]; simp, h2⟩

theorem linkRepl_bracket (t : Bytes) : linkRepl (91 :: t ++ [93]) = anchor t := by
  have h : slice (91 :: t ++ [93]) 1 ((91 :: t ++ [93]).length - 1) = t := by
    simp [slice, List.take_append_eq_append_take]
  unfold linkRepl anchor
  simp only [h]

theorem slice_mid (a b c : Bytes) :
    slice (a ++ b ++ c) a.length (a.length + b.length) = b := by
  simp [slice, List.take_append_eq_append_take, List.drop_append_eq_append_drop]

theorem replaceAllLoop_pageLink (fuel : Nat) (done rest buf : Bytes) :
    replaceAllLoop pageLink linkRepl (done ++ rest) fuel done.length done.length buf =
      buf ++ linkScan fuel rest := by
  induction fuel generalizing done rest buf with
  | zero => simp [replaceAllLoop, linkScan]
  | succ f ih =>
    simp only [replaceAllLoop, linkScan, Re.doExecute, List.drop_left, pageLink_search]
    rw [if_pos (by simp)]
    cases hf : findLink rest with
    | none => rfl
    | some q =>
      obtain ⟨pre, t, post⟩ := q
      obtain ⟨hrest, _⟩ := findLink_some rest pre t post hf
      have hsrc : done ++ rest = (done ++ pre ++ (91 :: t ++ [93])) ++ post := by
        rw [hrest]; simp
      have h1 : slice (done ++ rest) done.length (done.length + pre.length) = pre := by
        rw [hrest]
        have := slice_mid done pre (91 :: t ++ 93 :: post)
        simpa using this
      have h2 : slice (done ++ rest) (done.length + pre.length)
          (done.length + pre.length + t.length + 2) = 91 :: t ++ [93] := by
        rw [hrest]
        have := slice_mid (done ++ pre) (91 :: t ++ [93]) post
        simp only [List.length_append, List.length_cons, List.length_nil] at this
        rw [show done.length + pre.length + (t.length + 1 + (0 + 1)) =
          done.length + pre.length + t.length + 2 by omega] at this
        rw [← this]
        congr 1
        simp
      simp only [h1, h2, linkRepl_bracket]
      rw [if_pos (Or.inl (by omega)), if_neg (by omega)]
      have hlen : done.length + pre.length + t.length + 2 =
          (done ++ pre ++ (91 :: t ++ [93])).length := by
        simp only [List.length_append, List.length_cons, List.length_nil]
        omega
      rw [hlen, hsrc, ih]
      simp

theorem replaceAllFunc_pageLink (src : Bytes) :
    ReplaceAllFunc pageLink src linkRepl = linkScan (src.length + 1) src := by
  have h := replaceAllLoop_pageLink (src.length + 1) [] src []
  simpa [ReplaceAllFunc] using h

/-! ## One line -/

theorem opensLink_succ (c : Nat) (cs : Bytes) (k : Nat) :
    opensLink (c :: cs) (k + 1) = opensLink cs k := by
  simp [opensLink]

theorem firstOpen_cons (c : Nat) (cs : Bytes) :
    firstOpen (c :: cs) =
      if opensLink (c :: cs) 0 = true then some 0 else (firstOpen cs).map (· + 1) := by
  unfold firstOpen
  rw [List.length_cons, List.range_succ_eq_map, List.find?_cons]
  by_cases h : opensLink (c :: cs) 0 = true
  · simp [h]
  · have hf : (opensLink (c :: cs) ∘ Nat.succ) = opensLink cs := by
      funext k
      exact opensLink_succ c cs k
    simp only [h, List.find?_map, hf, if_false]
    rfl

theorem linkEnd_isSome (cs : Bytes) (hnl : 10 ∉ cs) :
    (linkEnd cs).isSome = true ↔ 93 ∈ cs.tail := by
  induction cs with
  | nil => simp [linkEnd]
  | cons c cs1 ih =>
    have hc : isDot c = true := by
      have : c ≠ 10 := fun h => hnl (by simp [h])
      simp [isDot, this]
    have hnl1 : 10 ∉ cs1 := fun h => hnl (List.mem_cons_of_mem _ h)
    have ih1 := ih hnl1
    simp only [linkEnd, if_pos hc, List.tail_cons]
    cases hl : linkEnd cs1 with
    | some tp =>
      rw [hl] at ih1
      simp only [Option.isSome_some, true_iff] at ih1 ⊢
      exact List.mem_of_mem_tail ih1
    | none =>
      rw [hl] at ih1
      simp only [Option.isSome_none, Bool.false_eq_true, false_iff] at ih1
      cases cs1 with
      | nil => simp
      | cons y ys =>
        simp only [List.tail_cons] at ih1
        by_cases hy : y = 93
        · simp [hy]
        · simp [hy, ih1, Ne.symm hy]

theorem linkEnd_post (r t post : Bytes) (hnl : 10 ∉ r) (h : linkEnd r = some (t, post)) :
    93 ∉ post := by
  induction r generalizing t with
  | nil => simp [linkEnd] at h
  | cons c cs ih =>
    have hnl1 : 10 ∉ cs := fun h => hnl (List.mem_cons_of_mem _ h)
    simp only [linkEnd] at h
    by_cases hc : isDot c = true
    · rw [if_pos hc] at h
      cases hl : linkEnd cs with
      | some tp =>
        obtain ⟨t1, post1⟩ := tp
        rw [hl] at h
        simp only [Option.some.injEq, Prod.mk.injEq] at h
        obtain ⟨_, rfl⟩ := h
        exact ih t1 hnl1 hl
      | none =>
        rw [hl] at h
        have hno : ¬ 93 ∈ cs.tail := by
          rw [← linkEnd_isSome cs hnl1, hl]
          simp
        by_cases hh : cs.head? = some 93
        · rw [if_pos hh] at h
          simp only [Option.some.injEq, Prod.mk.injEq] at h
          obtain ⟨_, rfl⟩ := h
          exact hno
        · rw [if_neg hh] at h
          exact absurd h (by simp)
    · rw [if_neg hc] at h
      exact absurd h (by simp)

theorem findLink_post (rest pre t post : Bytes) (hnl : 10 ∉ rest)
    (h : findLink rest = some (pre, t, post)) : 93 ∉ post := by
  induction rest generalizing pre with
  | nil => simp [findLink] at h
  | cons c cs ih =>
    have hnl1 : 10 ∉ cs := fun h => hnl (List.mem_cons_of_mem _ h)
    simp only [findLink] at h
    cases hl : (if c = 91 then linkEnd cs else none) with
    | some tp =>
      obtain ⟨t1, post1⟩ := tp
      rw [hl] at h
      simp only [Option.some.injEq, Prod.mk.injEq] at h
      obtain ⟨_, rfl, rfl⟩ := h
      by_cases hc : c = 91
      · rw [if_pos hc] at hl
        exact linkEnd_post cs _ _ hnl1 hl
      · rw [if_neg hc] at hl
        exact absurd hl (by simp)
    | none =>
      rw [hl] at h
      cases hf : findLink cs with
      | none => simp [hf] at h
      | some q =>
        obtain ⟨pre1, t1, post1⟩ := q
        rw [hf] at h
        simp only [Option.some.injEq, Prod.mk.injEq] at h
        obtain ⟨_, rfl, rfl⟩ := h
        exact ih pre1 hnl1 hf

theorem findLink_none_of_no_close (rest : Bytes) (h : 93 ∉ rest) : findLink rest = none := by
  cases hf : findLink rest with
  | none => rfl
  | some q =>
    obtain ⟨pre, t, post⟩ := q
    obtain ⟨he, _⟩ := findLink_some rest pre t post hf
    exact absurd (by rw [he]; simp) h

theorem firstOpen_eq (line : Bytes) (hnl : 10 ∉ line) :
    firstOpen line = (findLink line).map (fun q => q.1.length) := by
  induction line with
  | nil => rfl
  | cons c cs ih =>
    have hnl1 : 10 ∉ cs := fun h => hnl (List.mem_cons_of_mem _ h)
    rw [firstOpen_cons, ih hnl1]
    have hopen : opensLink (c :: cs) 0 = true ↔ c = 91 ∧ (linkEnd cs).isSome = true := by
      rw [linkEnd_isSome cs hnl1]
      simp [opensLink, List.drop_one]
    simp only [findLink]
    by_cases hc : c = 91
    · rw [if_pos hc]
      cases hl : linkEnd cs with
      | some tp =>
        obtain ⟨t, post⟩ := tp
        rw [if_pos (hopen.2 ⟨hc, by simp [hl]⟩)]
        rfl
      | none =>
        rw [if_neg (fun h => by simpa [hl] using (hopen.1 h).2)]
        cases findLink cs with
        | none => rfl
        | some q => rfl
    · rw [if_neg hc, if_neg (fun h => hc (hopen.1 h).1)]
      cases findLink cs with
      | none => rfl
      | some q => rfl

theorem lastClose_eq (pre t post : Bytes) (h : 93 ∉ post) :
    lastClose (pre ++ 91 :: t ++ 93 :: post) = pre.length + 1 + t.length := by
  unfold lastClose
  have hr : (pre ++ 91 :: t ++ 93 :: post).reverse =
      post.reverse ++ 93 :: (pre ++ 91 :: t).reverse := by simp
  rw [hr, List.indexOf_append_of_not_mem (by simpa using h), List.indexOf_cons_self]
  simp only [List.length_append, List.length_cons, List.length_reverse]
  omega

theorem lastClose_spec (line : Bytes) (h : 93 ∈ line) :
    line.get? (lastClose line) = some 93 ∧ ∀ j, lastClose line < j → line.get? j ≠ some 93 := by
  obtain ⟨post, pre, hrev, hpost⟩ := List.eq_append_cons_of_mem (List.mem_reverse.2 h)
  have hline : line = pre.reverse ++ 93 :: post.reverse := by
    have := congrArg List.reverse hrev
    simpa using this
  have hl : lastClose line = pre.reverse.length := by
    unfold lastClose
    rw [hrev, List.indexOf_append_of_not_mem hpost, List.indexOf_cons_self, hline]
    simp only [List.length_append, List.length_cons, List.length_reverse]
    omega
  rw [hl, hline]
  refine ⟨?_, fun j hj => ?_⟩
  · rw [List.get?_eq_getElem?, List.getElem?_append_right (Nat.le_refl _)]
    simp
  intro hget
  have hmem : 93 ∈ post.reverse := by
    rw [List.get?_eq_getElem?, List.getElem?_append_right (by omega)] at hget
    obtain ⟨k, hk⟩ : ∃ k, j - pre.reverse.length = k + 1 := ⟨j - pre.reverse.length - 1, by omega⟩
    rw [hk, List.getElem?_cons_succ] at hget
    exact List.getElem?_mem hget
  exact hpost (List.mem_reverse.1 hmem)

theorem rewriteLine_eq (line : Bytes) (hnl : 10 ∉ line) :
    rewriteLine line =
      match findLink line with
      | some (pre, t, post) => pre ++ anchor t ++ post
      | none => line := by
  unfold rewriteLine
  rw [firstOpen_eq line hnl]
  cases hf : findLink line with
  | none => rfl
  | some q =>
    obtain ⟨pre, t, post⟩ := q
    obtain ⟨he, _⟩ := findLink_some line pre t post hf
    have hp := findLink_post line pre t post hnl hf
    simp only [Option.map_some']
    rw [he, lastClose_eq pre t post hp]
    have h1 : List.take pre.length (pre ++ 91 :: t ++ 93 :: post) = pre := by
      simp [List.take_append_eq_append_take]
    have h2 : slice (pre ++ 91 :: t ++ 93 :: post) (pre.length + 1) (pre.length + 1 + t.length) =
        t := by
      have := slice_mid (pre ++ [91]) t (93 :: post)
      simpa using this
    have h3 : List.drop (pre.length + 1 + t.length + 1) (pre ++ 91 :: t ++ 93 :: post) = post := by
      have : pre ++ 91 :: t ++ 93 :: post = (pre ++ 91 :: t ++ [93]) ++ post := by simp
      rw [this]
      have hl : pre.length + 1 + t.length + 1 = (pre ++ 91 :: t ++ [93]).length := by
        simp only [List.length_append, List.length_cons, List.length_nil]
        omega
      rw [hl, List.drop_left]
    rw [h1, h2, h3]

/-! ## Several lines -/

theorem linkEnd_append_newline (x y : Bytes) :
    linkEnd (x ++ 10 :: y) =
      match linkEnd x with
      | some (t, post) => some (t, post ++ 10 :: y)
      | none => none := by
  induction x with
  | nil => simp [linkEnd, isDot]
  | cons c cs ih =>
    rw [List.cons_append]
    simp only [linkEnd]
    by_cases hc : isDot c = true
    · rw [if_pos hc, if_pos hc, ih]
      cases hl : linkEnd cs with
      | some tp => rfl
      | none =>
        cases cs with
        | nil => simp
        | cons z zs =>
          by_cases hz : z = 93
          · simp [hz]
          · simp [hz]
    · rw [if_neg hc, if_neg hc]

theorem findLink_append_newline (x y : Bytes) (hnl : 10 ∉ x) :
    findLink (x ++ 10 :: y) =
      match findLink x with
      | some (pre, t, post) => some (pre, t, post ++ 10 :: y)
      | none =>
        match findLink y with
        | some (pre, t, post) => some (x ++ 10 :: pre, t, post)
        | none => none := by
  induction x with
  | nil =>
    simp only [List.nil_append, findLink]
    cases findLink y with
    | none => rfl
    | some q => rfl
  | cons c cs ih =>
    have hnl1 : 10 ∉ cs := fun h => hnl (List.mem_cons_of_mem _ h)
    rw [List.cons_append]
    simp only [findLink, ih hnl1, linkEnd_append_newline]
    by_cases hc : c = 91
    · simp only [if_pos hc]
      cases hl : linkEnd cs with
      | some tp => rfl
      | none =>
        simp only
        cases findLink cs with
        | some q => rfl
        | none =>
          simp only
          cases findLink y with
          | none => rfl
          | some q => rfl
    · simp only [if_neg hc]
      cases findLink cs with
      | some q => rfl
      | none =>
        simp only
        cases findLink y with
        | none => rfl
        | some q => rfl

theorem linkScan_of_none (fuel : Nat) (rest : Bytes) (h : findLink rest = none) :
    linkScan fuel rest = rest := by
  cases fuel with
  | zero => rfl
  | succ f => simp [linkScan, h]

theorem linkScan_skip_line (fuel : Nat) (x y : Bytes) (hnl : 10 ∉ x) (hx : findLink x = none) :
    linkScan fuel (x ++ 10 :: y) = x ++ 10 :: linkScan fuel y := by
  cases fuel with
  | zero => rfl
  | succ f =>
    simp only [linkScan, findLink_append_newline x y hnl, hx]
    cases findLink y with
    | none => rfl
    | some q =>
      obtain ⟨pre, t, post⟩ := q
      simp

theorem splitOn_ne_nil (sep : Nat) (b : Bytes) : splitOn sep b ≠ [] := by
  induction b with
  | nil => simp [splitOn]
  | cons c cs ih =>
    simp only [splitOn]
    split_ifs
    · simp
    · cases h : splitOn sep cs with
      | nil => exact absurd h ih
      | cons l ls => simp

theorem splitOn_no_sep (sep : Nat) (line : Bytes) (h : sep ∉ line) :
    splitOn sep line = [line] := by
  induction line with
  | nil => rfl
  | cons c cs ih =>
    have hc : c ≠ sep := fun e => h (by simp [e])
    have h1 : sep ∉ cs := fun e => h (List.mem_cons_of_mem _ e)
    simp [splitOn, hc, ih h1]

theorem splitOn_append (sep : Nat) (line b : Bytes) (h : sep ∉ line) :
    splitOn sep (line ++ sep :: b) = line :: splitOn sep b := by
  induction line with
  | nil => simp [splitOn]
  | cons c cs ih =>
    have hc : c ≠ sep := fun e => h (by simp [e])
    have h1 : sep ∉ cs := fun e => h (List.mem_cons_of_mem _ e)
    rw [List.cons_append]
    simp [splitOn, hc, ih h1]

theorem joinWith_cons (sep : Nat) (l : Bytes) (ls : List Bytes) (h : ls ≠ []) :
    joinWith sep (l :: ls) = l ++ sep :: joinWith sep ls := by
  cases ls with
  | nil => exact absurd rfl h
  | cons m ms => rfl

theorem rewriteLines_no_newline (line : Bytes) (h : 10 ∉ line) :
    rewriteLines line = rewriteLine line := by
  simp [rewriteLines, splitOn_no_sep 10 line h, joinWith]

theorem rewriteLines_append (line b : Bytes) (h : 10 ∉ line) :
    rewriteLines (line ++ 10 :: b) = rewriteLine line ++ 10 :: rewriteLines b := by
  unfold rewriteLines
  rw [splitOn_append 10 line b h, List.map_cons, joinWith_cons]
  simpa using splitOn_ne_nil 10 b

theorem linkScan_line (fuel : Nat) (line : Bytes) (hnl : 10 ∉ line) :
    linkScan (fuel + 1) line = rewriteLine line := by
  rw [rewriteLine_eq line hnl]
  simp only [linkScan]
  cases hf : findLink line with
  | none => rfl
  | some q =>
    obtain ⟨pre, t, post⟩ := q
    have hp := findLink_post line pre t post hnl hf
    simp only
    rw [linkScan_of_none fuel post (findLink_none_of_no_close post hp)]

theorem linkScan_eq_rewriteLines (n : Nat) (body : Bytes) (hn : body.length ≤ n) (fuel : Nat)
    (hfuel : body.length < fuel) : linkScan fuel body = rewriteLines body := by
  induction n generalizing body fuel with
  | zero =>
    have hb : body = [] := List.eq_nil_of_length_eq_zero (by omega)
    subst hb
    obtain ⟨f, rfl⟩ : ∃ f, fuel = f + 1 := ⟨fuel - 1, by omega⟩
    rw [linkScan_line f [] (by simp), rewriteLines_no_newline [] (by simp)]
  | succ n ih =>
    obtain ⟨f, rfl⟩ : ∃ f, fuel = f + 1 := ⟨fuel - 1, by omega⟩
    by_cases hnl : 10 ∈ body
    · obtain ⟨line, b, rfl, hline⟩ := List.eq_append_cons_of_mem hnl
      have hlen : (line ++ 10 :: b).length = line.length + b.length + 1 := by simp; omega
      rw [hlen] at hn hfuel
      rw [rewriteLines_append line b hline, rewriteLine_eq line hline]
      cases hf : findLink line with
      | none =>
        rw [linkScan_skip_line (f + 1) line b hline hf, ih b (by omega) (f + 1) (by omega)]
      | some q =>
        obtain ⟨pre, t, post⟩ := q
        obtain ⟨he, _⟩ := findLink_some line pre t post hf
        have hp := findLink_post line pre t post hline hf
        have hpost : 10 ∉ post := fun h => hline (by rw [he]; simp [h])
        simp only [linkScan, findLink_append_newline line b hline, hf]
        rw [linkScan_skip_line f post b hpost (findLink_none_of_no_close post hp),
          ih b (by omega) f (by omega)]
        simp
    · rw [linkScan_line f body hnl, rewriteLines_no_newline body hnl]

/-! ## The link transform of `viewHandler` -/

theorem linkEnd_of_no_close (r : Bytes) (h : 93 ∉ r) : linkEnd r = none := by
  cases hl : linkEnd r with
  | none => rfl
  | some tp =>
    obtain ⟨t, post⟩ := tp
    obtain ⟨he, _⟩ := linkEnd_some r t post hl
    exact absurd (by rw [he]; simp) h

theorem linkEnd_single (x post : Bytes) (hx : x ≠ []) (hnl : 10 ∉ x) (hpost : 93 ∉ post) :
    linkEnd (x ++ 93 :: post) = some (x, post) := by
  induction x with
  | nil => exact absurd rfl hx
  | cons c cs ih =>
    have hc : isDot c = true := by
      have : c ≠ 10 := fun h => hnl (by simp [h])
      simp [isDot, this]
    have hnl1 : 10 ∉ cs := fun h => hnl (List.mem_cons_of_mem _ h)
    rw [List.cons_append]
    simp only [linkEnd, if_pos hc]
    cases cs with
    | nil =>
      have h1 : linkEnd ([] ++ 93 :: post) = none := by
        simp only [List.nil_append, linkEnd]
        rw [linkEnd_of_no_close post hpost]
        cases post with
        | nil => simp
        | cons y ys =>
          have : y ≠ 93 := fun h => hpost (by simp [h])
          simp [this]
      rw [h1]
      simp
    | cons d ds =>
      rw [ih (by simp) hnl1]

theorem findLink_single (pre x post : Bytes) (hpre : 91 ∉ pre) (hx : x ≠ []) (hnl : 10 ∉ x)
    (hpost : 93 ∉ post) :
    findLink (pre ++ 91 :: x ++ 93 :: post) = some (pre, x, post) := by
  induction pre with
  | nil =>
    show findLink (91 :: (x ++ 93 :: post)) = _
    simp only [findLink, if_true]
    rw [linkEnd_single x post hx hnl hpost]
  | cons c cs ih =>
    have hc : c ≠ 91 := fun h => hpre (by simp [h])
    have h1 : 91 ∉ cs := fun h => hpre (List.mem_cons_of_mem _ h)
    rw [List.cons_append, List.cons_append]
    simp only [findLink, if_neg hc]
    rw [ih h1]

theorem replaceAllFunc_single (pre x post : Bytes) (hpre : 91 ∉ pre) (hx : x ≠ [])
    (hnl : 10 ∉ x) (hpost : 93 ∉ post) :
    ReplaceAllFunc pageLink (pre ++ 91 :: x ++ 93 :: post) linkRepl =
      pre ++ anchor x ++ post := by
  rw [replaceAllFunc_pageLink]
  simp only [linkScan, findLink_single pre x post hpre hx hnl hpost]
  rw [linkScan_of_none _ post (findLink_none_of_no_close post hpost)]

/-- C1, evaluated: on the body `[A] and [B]` the pattern of `viewHandler` matches
once, from the first `[` to the last `]`, and gives the single anchor of
`A] and [B`; the pattern of the specification, `[`, one or more characters
other than `]`, `]`, gives the two anchors of `A` and of `B`. -/
theorem link_transform_two_spans :
    ReplaceAllFunc pageLink (ascii "[A] and [B]") linkRepl =
      ascii "<a href=\"A] and [B\">A] and [B</a>" ∧
    ReplaceAllFunc specPageLink (ascii "[A] and [B]") linkRepl =
      ascii "<a href=\"A\">A</a> and <a href=\"B\">B</a>" := by
  constructor <;> decide

/-- C4: when the form value `body` is `pre[X]post` with `X` non-empty and
`pre`, `X`, `post` free of brackets and newlines, and the write succeeds,
`saveHandler` leaves exactly that body in the page file, and `viewHandler` for
the same title then reads the file and executes the "view" template with the
page whose body is `pre`, the anchor of `X`, `post`. -/
theorem save_then_view (env : Env) (rs rv : Request) (title pre x post : Bytes) (w : World)
    (hpre : plain pre) (hx : plain x) (hne : x ≠ []) (hpost : plain post)
    (hbody : rs.FormValue (ascii "body") = pre ++ 91 :: x ++ 93 :: post)
    (hsave : (Page.save env ⟨title, rs.FormValue (ascii "body")⟩ w).1 = none) :
    (saveHandler env rs title w).files (pageFile title) = some (pre ++ 91 :: x ++ 93 :: post) ∧
    (viewHandler env rv title (saveHandler env rs title w)).trace =
      (saveHandler env rs title w).trace ++
        .readFile (pageFile title) ::
        .executeTemplate (ascii "view") baseTmplName ⟨title, pre ++ anchor x ++ post⟩ ::
        execFailure env (ascii "view") ⟨title, pre ++ anchor x ++ post⟩ := by
  rw [save_eq] at hsave
  simp only at hsave
  have hfile : (saveHandler env rs title w).files (pageFile title) =
      some (pre ++ 91 :: x ++ 93 :: post) := by
    rw [saveHandler_eq, hsave]
    simp [hbody]
  refine ⟨hfile, ?_⟩
  rw [viewHandler_eq, hfile]
  simp only
  rw [replaceAllFunc_single pre x post hpre.1 hne hx.2.2 hpost.2.1]

theorem save_then_view_witness :
    (saveHandler okEnv (request "/save/FrontPage" "Hello [World]") (ascii "FrontPage")
      emptyWorld).files (ascii "data/FrontPage.txt") = some (ascii "Hello [World]") ∧
    (viewHandler okEnv (request "/view/FrontPage" "") (ascii "FrontPage")
      (saveHandler okEnv (request "/save/FrontPage" "Hello [World]") (ascii "FrontPage")
        emptyWorld)).trace =
      (saveHandler okEnv (request "/save/FrontPage" "Hello [World]") (ascii "FrontPage")
        emptyWorld).trace ++
        [.readFile (ascii "data/FrontPage.txt"),
         .executeTemplate (ascii "view") (ascii "base")
          ⟨ascii "FrontPage", ascii "Hello <a href=\"World\">World</a>"⟩] :=
  save_then_view okEnv (request "/save/FrontPage" "Hello [World]") (request "/view/FrontPage" "")
    (ascii "FrontPage") (ascii "Hello ") (ascii "World") [] emptyWorld
    ⟨by decide, by decide, by decide⟩ ⟨by decide, by decide, by decide⟩ (by decide)
    ⟨by decide, by decide, by decide⟩ (by decide) rfl

/-- C10: the link transform of `viewHandler`, `ReplaceAllFunc` with the
pattern `\[(.+)\]`, gives for every body the body rewritten line by line:
the newline-delimited lines are rewritten one by one and joined with the same
newlines, a line that has a `[` at some index `i` and a `]` at some index
`j ≥ i + 2` having the bytes from its first such `i` to its last `]` replaced by
the anchor of the bytes in between, and any other line being unchanged. The
loop of the replacement reaches this result with any bound on its iterations
above the length of the body, and `viewHandler` hands the rewritten body to the
"view" template. So `[]` alone is not rewritten, brackets on two lines make no
link, and a line with two bracketed spans gets one anchor. -/
theorem link_transform_by_lines (body : Bytes) :
    ReplaceAllFunc pageLink body linkRepl = rewriteLines body ∧
    (∀ fuel, body.length < fuel →
      replaceAllLoop pageLink linkRepl body fuel 0 0 [] = rewriteLines body) ∧
    (∀ env r title w, w.files (pageFile title) = some body →
      Effect.executeTemplate (ascii "view") baseTmplName ⟨title, rewriteLines body⟩ ∈
        (viewHandler env r title w).trace) ∧
    rewriteLines (ascii "[]") = ascii "[]" ∧
    rewriteLines (ascii "[a\nb]") = ascii "[a\nb]" ∧
    rewriteLines (ascii "x [A] [B] y\n[C]") =
      ascii "x <a href=\"A] [B\">A] [B</a> y\n<a href=\"C\">C</a>" := by
  have hloop : ∀ fuel, body.length < fuel →
      replaceAllLoop pageLink linkRepl body fuel 0 0 [] = rewriteLines body := by
    intro fuel hfuel
    have h := replaceAllLoop_pageLink fuel [] body []
    simp only [List.nil_append, List.length_nil] at h
    rw [h, linkScan_eq_rewriteLines body.length body (Nat.le_refl _) fuel hfuel]
  have hall : ReplaceAllFunc pageLink body linkRepl = rewriteLines body :=
    hloop (body.length + 1) (Nat.lt_succ_self _)
  refine ⟨hall, hloop, ?_, by decide, by decide, by decide⟩
  intro env r title w hw
  rw [viewHandler_eq, hw]
  simp [hall]

/-! ## The server -/

theorem cleanPath_head (p : Bytes) : ∃ q, cleanPath p = 47 :: q := by
  unfold cleanPath pathClean
  by_cases h : p = []
  · exact ⟨[], by simp [h]⟩
  · simp only [if_neg h]
    split_ifs <;> exact ⟨_, rfl⟩

theorem splitOn_length (sep : Nat) (l : Bytes) : (splitOn sep l).length = l.count sep + 1 := by
  induction l with
  | nil => rfl
  | cons c cs ih =>
    simp only [splitOn]
    by_cases hc : c = sep
    · subst hc
      simp [ih]
    · rw [if_neg hc, List.count_cons_of_ne (Ne.symm hc)]
      cases h : splitOn sep cs with
      | nil => exact absurd h (splitOn_ne_nil sep cs)
      | cons l ls =>
        rw [h] at ih
        simpa using ih

theorem splitOn_snoc (sep : Nat) (l : Bytes) : splitOn sep (l ++ [sep]) = splitOn sep l ++ [[]] := by
  induction l with
  | nil => simp [splitOn]
  | cons c cs ih =>
    rw [List.cons_append]
    simp only [splitOn, ih]
    by_cases hc : c = sep
    · simp [hc]
    · rw [if_neg hc, if_neg hc]
      cases h : splitOn sep cs with
      | nil => exact absurd h (splitOn_ne_nil sep cs)
      | cons l ls => rfl

theorem pathSegs_cons (q : Bytes) : pathSegs (47 :: q) = (splitOn 47 q).map pathUnescape := by
  simp [pathSegs]

theorem pathSegs_length (q : Bytes) : (pathSegs (47 :: q)).length = (47 :: q).count 47 := by
  rw [pathSegs_cons, List.length_map, splitOn_length]
  simp

theorem pathSegs_snoc (q : Bytes) : pathSegs (47 :: q ++ [47]) = pathSegs (47 :: q) ++ [[]] := by
  rw [List.cons_append, pathSegs_cons, pathSegs_cons, splitOn_snoc]
  simp [pathUnescape, unescape]

theorem patSegs_view : patSegs (ascii "/view/") = ([ascii "view"], true) := by decide

theorem patSegs_edit : patSegs (ascii "/edit/") = ([ascii "edit"], true) := by decide

theorem patSegs_save : patSegs (ascii "/save/") = ([ascii "save"], true) := by decide

theorem patSegs_root : patSegs (ascii "/") = ([], true) := by decide

theorem patSegs_vars : patSegs (ascii "/debug/vars") = ([ascii "debug", ascii "vars"], false) := by
  decide

theorem main_without_method :
    main.filter (fun e => e.method = none) =
      [⟨none, ascii "/view/", makeHandler viewHandler⟩,
       ⟨none, ascii "/edit/", makeHandler editHandler⟩,
       ⟨none, ascii "/save/", makeHandler saveHandler⟩,
       ⟨none, ascii "/", rootHandler⟩] := by
  simp [main]

theorem main_with_method (m : Bytes) :
    main.filter (fun e => e.method = some m) =
      if m = ascii "GET" then [⟨some (ascii "GET"), ascii "/debug/vars", expvarHandler⟩]
      else [] := by
  by_cases h : m = ascii "GET"
  · simp [main, h]
  · simp [main, h, Ne.symm h]

theorem matchPath_vars (segs : List Bytes) (h : segs ≠ [ascii "debug", ascii "vars"]) :
    matchPath [⟨some (ascii "GET"), ascii "/debug/vars", expvarHandler⟩] segs = none := by
  simp [matchPath, patternMatches, patSegs_vars, h]

theorem matchMethodAndPath_main (method : Bytes) (segs : List Bytes)
    (h : segs ≠ [ascii "debug", ascii "vars"]) :
    matchMethodAndPath main method segs =
      matchPath (main.filter (fun e => e.method = none)) segs := by
  unfold matchMethodAndPath
  have h1 : matchPath (main.filter (fun e => e.method = some method)) segs = none := by
    rw [main_with_method]
    split_ifs
    · exact matchPath_vars segs h
    · rfl
  have h2 : matchPath (main.filter (fun e => e.method = some (ascii "GET"))) segs = none := by
    rw [main_with_method, if_pos rfl]
    exact matchPath_vars segs h
  rw [h1, h2]
  split_ifs <;> rfl

theorem patternMatches_subtree (pat x a b : Bytes) (rest : List Bytes)
    (hp : patSegs pat = ([x], true)) :
    patternMatches pat (a :: b :: rest) = decide (a = x) := by
  simp only [patternMatches, hp, if_true, List.isPrefixOf, List.length_cons, List.length_nil]
  by_cases h : a = x
  · subst h
    simp
  · have : (x == a) = false := by simpa using Ne.symm h
    simp [h, this]

theorem patternMatches_subtree_one (pat x a : Bytes) (hp : patSegs pat = ([x], true)) :
    patternMatches pat [a] = false := by
  simp [patternMatches, hp]

theorem patternMatches_root (segs : List Bytes) (hs : segs ≠ []) :
    patternMatches (ascii "/") segs = true := by
  cases segs with
  | nil => exact absurd rfl hs
  | cons a rest => simp [patternMatches, patSegs_root, List.isPrefixOf]

theorem matchPath_main (segs : List Bytes) (hs : segs ≠ []) :
    ∃ e, matchPath (main.filter (fun e => e.method = none)) segs = some e ∧
      (patSegs e.pattern).2 = true ∧
      ((underAction segs = true ∧ (patSegs e.pattern).1.length = 1 ∧
          (e.h = makeHandler viewHandler ∨ e.h = makeHandler editHandler ∨
            e.h = makeHandler saveHandler)) ∨
        (underAction segs = false ∧ (patSegs e.pattern).1.length = 0 ∧ e.h = rootHandler)) := by
  rw [main_without_method]
  have hne : ascii "view" ≠ ascii "edit" ∧ ascii "view" ≠ ascii "save" ∧
      ascii "edit" ≠ ascii "save" := by decide
  have hroot := patternMatches_root segs hs
  rcases segs with _ | ⟨a, _ | ⟨b, rest⟩⟩
  · exact absurd rfl hs
  · refine ⟨⟨none, ascii "/", rootHandler⟩, ?_, ?_, Or.inr ⟨rfl, ?_, rfl⟩⟩
    · simp only [matchPath, List.filter, patternMatches_subtree_one _ _ a patSegs_view,
        patternMatches_subtree_one _ _ a patSegs_edit,
        patternMatches_subtree_one _ _ a patSegs_save, hroot, List.foldl]
    · rw [patSegs_root]
    · rw [patSegs_root]
      rfl
  · have mv := patternMatches_subtree _ _ a b rest patSegs_view
    have me := patternMatches_subtree _ _ a b rest patSegs_edit
    have ms := patternMatches_subtree _ _ a b rest patSegs_save
    by_cases hv : a = ascii "view"
    · have he : a ≠ ascii "edit" := fun h => hne.1 (hv.symm.trans h)
      have hsv : a ≠ ascii "save" := fun h => hne.2.1 (hv.symm.trans h)
      rw [decide_eq_true hv] at mv
      rw [decide_eq_false he] at me
      rw [decide_eq_false hsv] at ms
      refine ⟨⟨none, ascii "/view/", makeHandler viewHandler⟩, ?_, ?_,
        Or.inl ⟨?_, ?_, Or.inl rfl⟩⟩
      · simp only [matchPath, List.filter, mv, me, ms, hroot, List.foldl, patSegs_view,
          patSegs_root]
        rfl
      · rw [patSegs_view]
      · simp [underAction, actions, hv]
      · rw [patSegs_view]
        rfl
    · by_cases he : a = ascii "edit"
      · have hsv : a ≠ ascii "save" := fun h => hne.2.2 (he.symm.trans h)
        rw [decide_eq_false hv] at mv
        rw [decide_eq_true he] at me
        rw [decide_eq_false hsv] at ms
        refine ⟨⟨none, ascii "/edit/", makeHandler editHandler⟩, ?_, ?_,
          Or.inl ⟨?_, ?_, Or.inr (Or.inl rfl)⟩⟩
        · simp only [matchPath, List.filter, mv, me, ms, hroot, List.foldl, patSegs_edit,
            patSegs_root]
          rfl
        · rw [patSegs_edit]
        · simp [underAction, actions, he]
        · rw [patSegs_edit]
          rfl
      · by_cases hsv : a = ascii "save"
        · rw [decide_eq_false hv] at mv
          rw [decide_eq_false he] at me
          rw [decide_eq_true hsv] at ms
          refine ⟨⟨none, ascii "/save/", makeHandler saveHandler⟩, ?_, ?_,
            Or.inl ⟨?_, ?_, Or.inr (Or.inr rfl)⟩⟩
          · simp only [matchPath, List.filter, mv, me, ms, hroot, List.foldl, patSegs_save,
              patSegs_root]
            rfl
          · rw [patSegs_save]
          · simp [underAction, actions, hsv]
          · rw [patSegs_save]
            rfl
        · rw [decide_eq_false hv] at mv
          rw [decide_eq_false he] at me
          rw [decide_eq_false hsv] at ms
          refine ⟨⟨none, ascii "/", rootHandler⟩, ?_, ?_, Or.inr ⟨?_, ?_, rfl⟩⟩
          · simp only [matchPath, List.filter, mv, me, ms, hroot, List.foldl]
          · rw [patSegs_root]
          · simp [underAction, actions, hv, he, hsv]
          · rw [patSegs_root]
            rfl

theorem matchOrRedirect_main (method q uPath : Bytes)
    (hbare : ∀ a ∈ actions, pathSegs (47 :: q) ≠ [a])
    (hv : pathSegs (47 :: q) ≠ [ascii "debug", ascii "vars"]) :
    matchOrRedirect main method (47 :: q) uPath =
      (matchPath (main.filter (fun e => e.method = none)) (pathSegs (47 :: q)), none) := by
  have hs : pathSegs (47 :: q) ≠ [] := by
    intro h
    have := pathSegs_length q
    rw [h] at this
    simp at this
  have hs2 : pathSegs (47 :: q ++ [47]) ≠ [] := by
    rw [pathSegs_snoc]
    simp
  have hv2 : pathSegs (47 :: q ++ [47]) ≠ [ascii "debug", ascii "vars"] := by
    rw [pathSegs_snoc]
    intro h
    have h1 := congrArg List.getLast? h
    simp at h1
    exact absurd h1 (by decide)
  have hexact : exactMatch (matchMethodAndPath main method (pathSegs (47 :: q ++ [47])))
      (47 :: q ++ [47]) = false := by
    rw [matchMethodAndPath_main method _ hv2]
    obtain ⟨e, he, hmulti, hcase⟩ := matchPath_main _ hs2
    have hcount : (47 :: q ++ [47]).count 47 = (pathSegs (47 :: q)).length + 1 := by
      rw [pathSegs_length]
      simp
    have hlast : (47 :: q ++ [47]).getLast? = some 47 := List.getLast?_concat _
    rw [he]
    simp only [exactMatch, hmulti]
    rw [if_neg (by simp), if_neg (fun h => h.2 hlast), hcount, decide_eq_false_iff_not]
    rcases hcase with ⟨hu, hl, _⟩ | ⟨_, hl, _⟩
    · rw [hl]
      rw [pathSegs_snoc] at hu
      have : (pathSegs (47 :: q)).length ≠ 1 := by
        intro hlen
        obtain ⟨a, ha⟩ := List.length_eq_one.1 hlen
        rw [ha] at hu
        simp only [List.cons_append, List.nil_append, underAction, decide_eq_true_eq] at hu
        exact hbare a hu ha
      omega
    · rw [hl]
      have : (pathSegs (47 :: q)).length ≠ 0 := fun h => hs (List.eq_nil_of_length_eq_zero h)
      omega
  unfold matchOrRedirect
  simp only [hexact, matchMethodAndPath_main method _ hv]
  split_ifs <;> first | rfl | (exfalso; assumption)

/-- C5 as stated fails: `/foo` is neither `/` nor a match of the path pattern,
and the server answers it with the 302 redirect of `rootHandler`, not with 404.
Nor is there a 404 for `GET /debug/vars`, which the handler of the imported
package `expvar` answers, and for `/view` and `/view//x`, which the mux itself
redirects to `/view/` and to `/view/x`. -/
theorem serve_foo_not_404 :
    ascii "/foo" ≠ ascii "/" ∧
    FindStringSubmatch validPath (ascii "/foo") = none ∧
    (serve okEnv (ascii "GET") (ascii "/foo") (request "/foo" "") emptyWorld).map
      (fun w => w.trace) = some [.redirect (ascii "/view/FrontPage") 302] ∧
    FindStringSubmatch validPath (ascii "/debug/vars") = none ∧
    (serve okEnv (ascii "GET") (ascii "/debug/vars") (request "/debug/vars" "") emptyWorld).map
      (fun w => w.trace) = some [.expvar] ∧
    FindStringSubmatch validPath (ascii "/view") = none ∧
    (serve okEnv (ascii "GET") (ascii "/view") (request "/view" "") emptyWorld).map
      (fun w => w.trace) = some [.redirect (ascii "/view/") 307] ∧
    FindStringSubmatch validPath (ascii "/view//x") = none ∧
    (serve okEnv (ascii "GET") (ascii "/view//x") (request "/view//x" "") emptyWorld).map
      (fun w => w.trace) = some [.redirect (ascii "/view/x") 307] := by
  refine ⟨by decide, by decide, by decide, by decide, by decide, by decide, by decide,
    by decide, by decide⟩

/-- C5, amended: take a request, not a `CONNECT`, whose escaped path the mux
leaves as it is (it is in canonical form and is not the bare `/view`, `/edit`
or `/save`), which is not for `/debug/vars`, and whose path is not a full match
of `/(view|edit|save)/([a-zA-Z0-9]+)`. The server answers it with 404 when it
lies under `/view/`, `/edit/` or `/save/`, and with the 302 redirect of
`rootHandler` to `/view/FrontPage` otherwise, as it does `/foo`. -/
theorem serve_unmatched (env : Env) (method escapedPath : Bytes) (r : Request) (w : World)
    (hm : method ≠ ascii "CONNECT") (hc : cleanPath escapedPath = escapedPath)
    (hbare : ∀ a ∈ actions, pathSegs escapedPath ≠ [a])
    (hv : pathSegs escapedPath ≠ [ascii "debug", ascii "vars"])
    (hn : ¬ ∃ a t, IsActionPath r.Path a t) :
    serve env method escapedPath r w =
      some (if underAction (pathSegs escapedPath) = true then w.emit .notFound
        else w.emit (.redirect (ascii "/view/FrontPage") 302)) := by
  obtain ⟨q, hq⟩ := cleanPath_head escapedPath
  rw [hc] at hq
  subst hq
  have hstar : (47 :: q : Bytes) ≠ ascii "*" := by
    intro h
    have h1 : (47 :: q).head? = (ascii "*").head? := congrArg List.head? h
    have h2 : (ascii "*").head? = some 42 := by decide
    rw [h2] at h1
    simp at h1
  have hs : pathSegs (47 :: q) ≠ [] := by
    intro h
    have := pathSegs_length q
    rw [h] at this
    simp at this
  unfold serve ServeHTTP
  rw [if_neg (by rintro (h | h); exact hm h; exact hstar h)]
  simp only [hc, matchOrRedirect_main method q r.Path hbare hv, ne_eq, not_true_eq_false,
    if_false]
  obtain ⟨e, he, _, hcase⟩ := matchPath_main _ hs
  rw [he]
  rcases hcase with ⟨hu, _, hh⟩ | ⟨hu, _, hh⟩
  · rw [if_pos hu]
    simp only
    rcases hh with hh | hh | hh <;> rw [hh, makeHandler_no_match env r w hn]
  · rw [if_neg (by simp [hu])]
    simp only [hh, rootHandler, StatusFound]

theorem serve_unmatched_witness :
    (cleanPath (ascii "/foo") = ascii "/foo" ∧ underAction (pathSegs (ascii "/foo")) = false ∧
      serve okEnv (ascii "GET") (ascii "/foo") (request "/foo" "") emptyWorld =
        some (emptyWorld.emit (.redirect (ascii "/view/FrontPage") 302))) ∧
    (cleanPath (ascii "/view/bad%20title%21") = ascii "/view/bad%20title%21" ∧
      underAction (pathSegs (ascii "/view/bad%20title%21")) = true ∧
      serve okEnv (ascii "POST") (ascii "/view/bad%20title%21") (request "/view/bad title!" "")
        emptyWorld = some (emptyWorld.emit .notFound)) :=
  ⟨⟨by decide, by decide,
    serve_unmatched okEnv (ascii "GET") (ascii "/foo") (request "/foo" "") emptyWorld
      (by decide) (by decide) (by decide) (by decide)
      (not_isActionPath_of_none _ (by decide))⟩,
   ⟨by decide, by decide,
    serve_unmatched okEnv (ascii "POST") (ascii "/view/bad%20title%21")
      (request "/view/bad title!" "") emptyWorld (by decide) (by decide) (by decide)
      (by decide) (not_isActionPath_of_none _ (by decide))⟩⟩

end Wiki
